import Mathlib

set_option maxHeartbeats 1000000

namespace Metro

/-! # Shallow embedding of the metro source-map composition core

This file embeds, in Lean, the parts of the repository that the verified
properties speak about: the `zip` generator and the `/symbolicate` URL
collection of `packages/metro/src/Server.js`, and the source-map
consumer / composer core (Base64 VLQ codec, `Consumer`,
`composeSourceMaps`) exercised by the test suite shipped in the repository.
-/

/-! ## Server.js: the zip generator -/

/-- Embedding of the `zip` generator of `packages/metro/src/Server.js`:
it walks `xs`, pulling one element of `ys` per element of `xs`, stops as
soon as either iterable is exhausted, and yields the pairs in order. -/
def zipGen {α β : Type} : List α → List β → List (α × β)
  | [], _ => []
  | _ :: _, [] => []
  | x :: xs, y :: ys => (x, y) :: zipGen xs ys

theorem zipGen_length {α β : Type} (xs : List α) (ys : List β) :
    (zipGen xs ys).length = min xs.length ys.length := by
  induction xs generalizing ys with
  | nil => simp [zipGen]
  | cons x xs ih =>
    cases ys with
    | nil => simp [zipGen]
    | cons y ys =>
      simp [zipGen, ih, Nat.succ_min_succ]

theorem zipGen_get? {α β : Type} (xs : List α) (ys : List β) (i : Nat) :
    (zipGen xs ys).get? i =
      (xs.get? i).bind (fun x => (ys.get? i).map (fun y => (x, y))) := by
  induction xs generalizing ys i with
  | nil => simp [zipGen]
  | cons x xs ih =>
    cases ys with
    | nil =>
      cases i <;> simp [zipGen]
    | cons y ys =>
      cases i with
      | zero => simp [zipGen]
      | succ j => simpa [zipGen] using ih ys j

/-- C9: the zip generator in Server.js yields exactly min(|xs|, |ys|) pairs,
the i-th pair being the i-th elements of xs and ys in order, terminating as
soon as either iterable is exhausted. -/
theorem claim_C9_zip_spec {α β : Type} (xs : List α) (ys : List β) :
    (zipGen xs ys).length = min xs.length ys.length ∧
      ∀ i : Nat, (zipGen xs ys).get? i =
        (xs.get? i).bind (fun x => (ys.get? i).map (fun y => (x, y))) :=
  ⟨zipGen_length xs ys, fun i => zipGen_get? xs ys i⟩

/-! ## Server.js: URL collection in the /symbolicate endpoint -/

/-- The JS `String.prototype.startsWith`, over the character list of the
string (core `String.startsWith` is defined by well-founded recursion the
kernel cannot evaluate, so the model uses plain list recursion). -/
def strStartsWith (s p : String) : Bool :=
  p.toList.isPrefixOf s.toList

/-- The JS `String.prototype.endsWith`, over the character list. -/
def strEndsWith (s p : String) : Bool :=
  p.toList.isSuffixOf s.toList

/-- One step of the URL-collecting loop of `Server._symbolicate`
(`packages/metro/src/Server.js`): a frame's `file` field (possibly null)
is added to the ordered set of URLs only when it is non-null, not already
present, does not end with `/debuggerWorker.js`, and starts with `http`. -/
def urlStep (urls : List String) (file : Option String) : List String :=
  match file with
  | none => urls
  | some sourceUrl =>
    if sourceUrl ∉ urls ∧
        strEndsWith sourceUrl "/debuggerWorker.js" = false ∧
        strStartsWith sourceUrl "http" = true
    then urls ++ [sourceUrl]
    else urls

/-- The URLs for which `_symbolicate` fetches a source map, in insertion
order (the JS `Set` preserves insertion order, modelled by appending). -/
def collectSourceUrls (stack : List (Option String)) : List String :=
  stack.foldl urlStep []

theorem urlStep_none (urls : List String) : urlStep urls none = urls := rfl

theorem urlStep_some (urls : List String) (s : String) :
    urlStep urls (some s) =
      if s ∉ urls ∧
          strEndsWith s "/debuggerWorker.js" = false ∧
          strStartsWith s "http" = true
      then urls ++ [s]
      else urls := rfl

/-- The fold preserves: no duplicates, and every collected URL passes the
filter and came from some frame (or was already collected). -/
theorem collectSourceUrls_inv (stack : List (Option String))
    (acc : List String) (hnd : acc.Nodup) :
    (stack.foldl urlStep acc).Nodup ∧
    ∀ u ∈ stack.foldl urlStep acc,
      u ∈ acc ∨ ((some u) ∈ stack ∧
        strStartsWith u "http" = true ∧
        strEndsWith u "/debuggerWorker.js" = false) := by
  induction stack generalizing acc with
  | nil =>
    exact ⟨hnd, fun u hu => Or.inl hu⟩
  | cons f rest ih =>
    cases f with
    | none =>
      have h := ih acc hnd
      refine ⟨h.1, ?_⟩
      intro u hu
      rcases h.2 u hu with h1 | h2
      · exact Or.inl h1
      · exact Or.inr ⟨List.mem_cons_of_mem _ h2.1, h2.2⟩
    | some s =>
      rw [List.foldl_cons, urlStep_some]
      by_cases hc : s ∉ acc ∧
          strEndsWith s "/debuggerWorker.js" = false ∧
          strStartsWith s "http" = true
      · rw [if_pos hc]
        have hnd' : (acc ++ [s]).Nodup := by
          refine List.Nodup.append hnd (List.nodup_singleton s) ?_
          intro a ha hb
          rcases List.mem_singleton.mp hb with rfl
          exact hc.1 ha
        have h := ih (acc ++ [s]) hnd'
        refine ⟨h.1, ?_⟩
        intro u hu
        rcases h.2 u hu with h1 | h2
        · rcases List.mem_append.mp h1 with ha | hb
          · exact Or.inl ha
          · rcases List.mem_singleton.mp hb with rfl
            exact Or.inr ⟨List.mem_cons_self _ _, hc.2.2, hc.2.1⟩
        · exact Or.inr ⟨List.mem_cons_of_mem _ h2.1, h2.2⟩
      · rw [if_neg hc]
        have h := ih acc hnd
        refine ⟨h.1, ?_⟩
        intro u hu
        rcases h.2 u hu with h1 | h2
        · exact Or.inl h1
        · exact Or.inr ⟨List.mem_cons_of_mem _ h2.1, h2.2⟩

/-- C10: in the /symbolicate endpoint a source map is fetched at most once
per URL (the collected URL list has no duplicates), and only for URLs that
are non-null, start with http, and do not end with /debuggerWorker.js;
every collected URL is the file of some frame of the request, so frames
whose file fails the filter never cause a fetch. -/
theorem claim_C10_symbolicate_url_filter (stack : List (Option String)) :
    (collectSourceUrls stack).Nodup ∧
      ∀ u ∈ collectSourceUrls stack,
        (some u) ∈ stack ∧ strStartsWith u "http" = true ∧
          strEndsWith u "/debuggerWorker.js" = false := by
  have h := collectSourceUrls_inv stack [] List.nodup_nil
  refine ⟨h.1, ?_⟩
  intro u hu
  rcases h.2 u hu with h1 | h2
  · exact absurd h1 (List.not_mem_nil u)
  · exact h2

/-- Witness for C10 at a concrete request stack. -/
theorem claim_C10_witness :
    (collectSourceUrls
        [some "http://h/bundle.js", none, some "http://h/bundle.js",
          some "ws://h/debuggerWorker.js"]).Nodup ∧
      (some "http://h/bundle.js") ∈
          ([some "http://h/bundle.js", none, some "http://h/bundle.js",
            some "ws://h/debuggerWorker.js"] : List (Option String)) ∧
        strStartsWith "http://h/bundle.js" "http" = true ∧
          strEndsWith "http://h/bundle.js" "/debuggerWorker.js" = false := by
  have h := claim_C10_symbolicate_url_filter
    [some "http://h/bundle.js", none, some "http://h/bundle.js",
      some "ws://h/debuggerWorker.js"]
  refine ⟨h.1, h.2 "http://h/bundle.js" ?_⟩
  have he : collectSourceUrls
      [some "http://h/bundle.js", none, some "http://h/bundle.js",
        some "ws://h/debuggerWorker.js"] = ["http://h/bundle.js"] := by
    decide
  rw [he]
  exact List.mem_singleton.mpr rfl

/-! ## Base64 VLQ codec

Modelled from the spec: the VLQ codec of the source-map core is not under
src/ (only its test suite is), so it is embedded here following section
4.A of the specification: Base64 alphabet A-Z a-z 0-9 + /, five value
bits per character, bit 0x20 as continuation flag, least-significant bit
of the assembled integer as sign, failure on invalid characters,
truncation, or values beyond the 32-bit signed range. -/

/-- The Base64 character for a digit 0..63. -/
def b64Char (d : Nat) : Char :=
  if d < 26 then Char.ofNat (65 + d)
  else if d < 52 then Char.ofNat (97 + (d - 26))
  else if d < 62 then Char.ofNat (48 + (d - 52))
  else if d = 62 then Char.ofNat 43
  else Char.ofNat 47

/-- The digit 0..63 of a Base64 character, none for invalid characters. -/
def b64Value (c : Char) : Option Nat :=
  let n := c.toNat
  if 65 ≤ n ∧ n ≤ 90 then some (n - 65)
  else if 97 ≤ n ∧ n ≤ 122 then some (n - 97 + 26)
  else if 48 ≤ n ∧ n ≤ 57 then some (n - 48 + 52)
  else if n = 43 then some 62
  else if n = 47 then some 63
  else none

/-- Encode a non-negative VLQ value as little-endian 5-bit groups, with
the 0x20 continuation bit on every group except the last.  Structural
recursion on a fuel argument (the value itself bounds the number of
groups) so that the kernel can evaluate the encoder. -/
def encodeNatVLQGo : Nat → Nat → List Char
  | 0, v => [b64Char (v % 32)]
  | fuel + 1, v =>
    if v < 32 then [b64Char v]
    else b64Char (v % 32 + 32) :: encodeNatVLQGo fuel (v / 32)

/-- Encode a non-negative VLQ value. -/
def encodeNatVLQ (v : Nat) : List Char := encodeNatVLQGo v v

/-- Decode a VLQ value: read characters until the continuation bit
clears, assembling little-endian 5-bit groups; fails on an invalid
character or on truncated input. -/
def goVLQ : List Char → Nat → Nat → Option (Nat × List Char)
  | [], _, _ => none
  | c :: cs, acc, shift =>
    match b64Value c with
    | none => none
    | some d =>
      let acc' := acc + (d % 32) * 2 ^ shift
      if d < 32 then some (acc', cs) else goVLQ cs acc' (shift + 5)

/-- The least-significant bit of the assembled integer is the sign. -/
def toVLQSigned (n : Int) : Nat :=
  if n < 0 then 2 * n.natAbs + 1 else 2 * n.natAbs

/-- Separate the sign from an assembled VLQ value. -/
def fromVLQSigned (v : Nat) : Int :=
  if v % 2 = 1 then - ((v / 2 : Nat) : Int) else ((v / 2 : Nat) : Int)

/-- Encode a signed integer as Base64 VLQ characters. -/
def encodeVLQ (n : Int) : List Char :=
  encodeNatVLQ (toVLQSigned n)

/-- Parse one signed Base64 VLQ from the front of the input, returning
the value and the remaining characters; fails on invalid characters,
truncation, or a value exceeding the 32-bit range. -/
def parseVLQ (cs : List Char) : Option (Int × List Char) :=
  match goVLQ cs 0 0 with
  | none => none
  | some (v, rest) => if v < 2 ^ 32 then some (fromVLQSigned v, rest) else none

theorem b64Value_b64Char_fin : ∀ d : Fin 64, b64Value (b64Char d.val) = some d.val := by
  decide

theorem b64Value_b64Char {d : Nat} (h : d < 64) :
    b64Value (b64Char d) = some d :=
  b64Value_b64Char_fin ⟨d, h⟩

theorem b64Char_ne_delims_fin :
    ∀ d : Fin 64, b64Char d.val ≠ Char.ofNat 59 ∧ b64Char d.val ≠ Char.ofNat 44 := by
  decide

theorem goVLQ_encodeNatVLQGo (fuel : Nat) :
    ∀ (v : Nat), v ≤ fuel →
      ∀ (rest : List Char) (acc shift : Nat),
        goVLQ (encodeNatVLQGo fuel v ++ rest) acc shift =
          some (acc + v * 2 ^ shift, rest) := by
  induction fuel with
  | zero =>
    intro v hv rest acc shift
    have hv0 : v = 0 := Nat.le_zero.mp hv
    subst hv0
    simp only [encodeNatVLQGo, List.cons_append, List.nil_append, goVLQ,
      b64Value_b64Char (by omega : 0 % 32 < 64)]
    rw [if_pos (by omega : 0 % 32 < 32)]
    simp
  | succ fuel ih =>
    intro v hv rest acc shift
    rw [encodeNatVLQGo]
    by_cases h : v < 32
    · rw [if_pos h]
      simp only [List.cons_append, List.nil_append, goVLQ,
        b64Value_b64Char (by omega : v < 64)]
      rw [if_pos h, Nat.mod_eq_of_lt h]
      rw [List.append_eq, List.nil_append]
    · rw [if_neg h]
      simp only [List.cons_append, goVLQ,
        b64Value_b64Char (by omega : v % 32 + 32 < 64)]
      rw [if_neg (by omega : ¬ v % 32 + 32 < 32)]
      rw [List.append_eq]
      rw [ih (v / 32) (by omega) rest _ (shift + 5)]
      have hmod : (v % 32 + 32) % 32 = v % 32 := by omega
      rw [hmod]
      congr 2
      conv_rhs => rw [← Nat.div_add_mod v 32]
      ring

theorem goVLQ_encodeNatVLQ (v : Nat) :
    ∀ (rest : List Char) (acc shift : Nat),
      goVLQ (encodeNatVLQ v ++ rest) acc shift = some (acc + v * 2 ^ shift, rest) :=
  goVLQ_encodeNatVLQGo v v (Nat.le_refl v)

theorem encodeNatVLQGo_chars (fuel : Nat) :
    ∀ (v : Nat), ∀ c ∈ encodeNatVLQGo fuel v,
      c ≠ Char.ofNat 59 ∧ c ≠ Char.ofNat 44 := by
  induction fuel with
  | zero =>
    intro v c hc
    rcases List.mem_singleton.mp hc with rfl
    exact b64Char_ne_delims_fin ⟨v % 32, by omega⟩
  | succ fuel ih =>
    intro v c hc
    rw [encodeNatVLQGo] at hc
    by_cases h : v < 32
    · rw [if_pos h] at hc
      rcases List.mem_singleton.mp hc with rfl
      exact b64Char_ne_delims_fin ⟨v, by omega⟩
    · rw [if_neg h] at hc
      rcases List.mem_cons.mp hc with rfl | hmem
      · exact b64Char_ne_delims_fin ⟨v % 32 + 32, by omega⟩
      · exact ih (v / 32) c hmem

theorem encodeNatVLQ_chars (v : Nat) :
    ∀ c ∈ encodeNatVLQ v, c ≠ Char.ofNat 59 ∧ c ≠ Char.ofNat 44 :=
  encodeNatVLQGo_chars v v

theorem fromVLQSigned_toVLQSigned (n : Int) :
    fromVLQSigned (toVLQSigned n) = n := by
  unfold toVLQSigned fromVLQSigned
  by_cases h : n < 0
  · rw [if_pos h]
    have h1 : (2 * n.natAbs + 1) % 2 = 1 := by omega
    rw [if_pos h1]
    have h2 : (2 * n.natAbs + 1) / 2 = n.natAbs := by omega
    rw [h2]
    omega
  · rw [if_neg h]
    rw [if_neg (by omega : ¬ (2 * n.natAbs) % 2 = 1)]
    have h2 : (2 * n.natAbs) / 2 = n.natAbs :=
      Nat.mul_div_cancel_left _ (by omega)
    rw [h2]
    omega

theorem toVLQSigned_lt (n : Int) (h : n.natAbs ≤ 2 ^ 31 - 1) :
    toVLQSigned n < 2 ^ 32 := by
  unfold toVLQSigned
  by_cases hn : n < 0
  · rw [if_pos hn]; omega
  · rw [if_neg hn]; omega

/-- Round trip of one signed VLQ at the front of a stream. -/
theorem parseVLQ_encodeVLQ (n : Int) (h : n.natAbs ≤ 2 ^ 31 - 1)
    (rest : List Char) :
    parseVLQ (encodeVLQ n ++ rest) = some (n, rest) := by
  unfold parseVLQ encodeVLQ
  rw [goVLQ_encodeNatVLQ (toVLQSigned n) rest 0 0]
  simp only [Nat.zero_add, pow_zero, Nat.mul_one]
  rw [if_pos (toVLQSigned_lt n h)]
  rw [fromVLQSigned_toVLQSigned]

/-! ## Segment model and segment-stream codec

Modelled from the spec: the segment container and the segment-stream
grammar of sections 3 and 4.A (the implementation is not under src/).
Lines are separated by semicolons, segments within a line by commas; a
segment has arity 1 (a hole), 4, or 5; all fields except the first are
signed deltas; the generated column resets per line while the other four
running fields are carried across all segments of the map.  Fields are
stored as the absolute decoded values (0-based); decoding fails when a
delta would make an absolute field negative. -/

/-- A mapping segment of one of the three arities. -/
inductive Segment where
  | hole (genCol : Nat)
  | seg4 (genCol source origLine origCol : Nat)
  | seg5 (genCol source origLine origCol name : Nat)
deriving DecidableEq, Repr

/-- The generated column of a segment. -/
def Segment.genCol : Segment → Nat
  | .hole g => g
  | .seg4 g _ _ _ => g
  | .seg5 g _ _ _ _ => g

/-- Running absolute values of the four delta fields carried across all
segments of a map. -/
structure DState where
  src : Nat
  oLine : Nat
  oCol : Nat
  name : Nat
deriving DecidableEq, Repr

/-- All running fields start at zero. -/
def DState.init : DState := ⟨0, 0, 0, 0⟩

/-- Encode one segment given the previous generated column on the line
and the running state; returns the characters, the new previous column
and the new running state. -/
def encodeSeg (gPrev : Nat) (st : DState) : Segment → List Char × Nat × DState
  | .hole g => (encodeVLQ ((g : Int) - (gPrev : Int)), g, st)
  | .seg4 g s l c =>
      (encodeVLQ ((g : Int) - (gPrev : Int)) ++
        (encodeVLQ ((s : Int) - (st.src : Int)) ++
          (encodeVLQ ((l : Int) - (st.oLine : Int)) ++
            encodeVLQ ((c : Int) - (st.oCol : Int)))),
        g, ⟨s, l, c, st.name⟩)
  | .seg5 g s l c n =>
      (encodeVLQ ((g : Int) - (gPrev : Int)) ++
        (encodeVLQ ((s : Int) - (st.src : Int)) ++
          (encodeVLQ ((l : Int) - (st.oLine : Int)) ++
            (encodeVLQ ((c : Int) - (st.oCol : Int)) ++
              encodeVLQ ((n : Int) - (st.name : Int))))),
        g, ⟨s, l, c, n⟩)

/-- Join chunks with a delimiter character. -/
def joinChar (d : Char) : List (List Char) → List Char
  | [] => []
  | [c] => c
  | c :: c2 :: rest => c ++ d :: joinChar d (c2 :: rest)

/-- Split on a delimiter character (inverse of joinChar). -/
def splitCharAux (d : Char) : List Char → List Char → List (List Char)
  | [], acc => [acc.reverse]
  | c :: cs, acc =>
      if c = d then acc.reverse :: splitCharAux d cs []
      else splitCharAux d cs (c :: acc)

/-- Split a character list on a delimiter. -/
def splitChar (d : Char) (cs : List Char) : List (List Char) :=
  splitCharAux d cs []

/-- Encode the segments of one line as comma-separated chunks, threading
the running state; the generated-column delta restarts at 0. -/
def encodeSegChunks (gPrev : Nat) (st : DState) : List Segment → List (List Char) × DState
  | [] => ([], st)
  | sg :: rest =>
      let r := encodeSeg gPrev st sg
      let r2 := encodeSegChunks r.2.1 r.2.2 rest
      (r.1 :: r2.1, r2.2)

/-- Encode one line of segments. -/
def encodeLine (st : DState) (line : List Segment) : List Char × DState :=
  let r := encodeSegChunks 0 st line
  (joinChar (Char.ofNat 44) r.1, r.2)

/-- Encode all lines as semicolon-separated chunks. -/
def encodeLineChunks (st : DState) : List (List Segment) → List (List Char) × DState
  | [] => ([], st)
  | line :: rest =>
      let r := encodeLine st line
      let r2 := encodeLineChunks r.2 rest
      (r.1 :: r2.1, r2.2)

/-- Serialize a segment container into a mappings string. -/
def encodeMappings (lines : List (List Segment)) : String :=
  ⟨joinChar (Char.ofNat 59) (encodeLineChunks DState.init lines).1⟩

/-- Parse the 1, 4 or 5 signed VLQ fields of one segment chunk; fails on
any other arity or on trailing garbage. -/
def parseSegFields (cs : List Char) : Option (List Int) :=
  match parseVLQ cs with
  | none => none
  | some (f1, r1) =>
    if r1 = [] then some [f1] else
      match parseVLQ r1 with
      | none => none
      | some (f2, r2) =>
        match parseVLQ r2 with
        | none => none
        | some (f3, r3) =>
          match parseVLQ r3 with
          | none => none
          | some (f4, r4) =>
            if r4 = [] then some [f1, f2, f3, f4] else
              match parseVLQ r4 with
              | none => none
              | some (f5, r5) =>
                if r5 = [] then some [f1, f2, f3, f4, f5] else none

/-- Apply decoded deltas to the running state, producing the absolute
segment; fails when an absolute field would go negative. -/
def applySegFields (gPrev : Nat) (st : DState) : List Int → Option (Segment × Nat × DState)
  | [d1] =>
      let g := (gPrev : Int) + d1
      if g < 0 then none else some (.hole g.toNat, g.toNat, st)
  | [d1, d2, d3, d4] =>
      let g := (gPrev : Int) + d1
      let s := (st.src : Int) + d2
      let l := (st.oLine : Int) + d3
      let c := (st.oCol : Int) + d4
      if g < 0 ∨ s < 0 ∨ l < 0 ∨ c < 0 then none
      else some (.seg4 g.toNat s.toNat l.toNat c.toNat, g.toNat,
        ⟨s.toNat, l.toNat, c.toNat, st.name⟩)
  | [d1, d2, d3, d4, d5] =>
      let g := (gPrev : Int) + d1
      let s := (st.src : Int) + d2
      let l := (st.oLine : Int) + d3
      let c := (st.oCol : Int) + d4
      let n := (st.name : Int) + d5
      if g < 0 ∨ s < 0 ∨ l < 0 ∨ c < 0 ∨ n < 0 then none
      else some (.seg5 g.toNat s.toNat l.toNat c.toNat n.toNat, g.toNat,
        ⟨s.toNat, l.toNat, c.toNat, n.toNat⟩)
  | _ => none

/-- Decode one segment chunk. -/
def decodeSeg (gPrev : Nat) (st : DState) (chunk : List Char) :
    Option (Segment × Nat × DState) :=
  match parseSegFields chunk with
  | none => none
  | some fs => applySegFields gPrev st fs

/-- Decode the comma-separated segment chunks of one line. -/
def decodeLineSegs (gPrev : Nat) (st : DState) : List (List Char) → Option (List Segment × DState)
  | [] => some ([], st)
  | chunk :: rest =>
      match decodeSeg gPrev st chunk with
      | none => none
      | some (sg, g2, st2) =>
        match decodeLineSegs g2 st2 rest with
        | none => none
        | some (sgs, st3) => some (sg :: sgs, st3)

/-- Decode one line chunk: an empty chunk is an empty line. -/
def decodeLine (st : DState) (chunk : List Char) : Option (List Segment × DState) :=
  match chunk with
  | [] => some ([], st)
  | _ :: _ => decodeLineSegs 0 st (splitChar (Char.ofNat 44) chunk)

/-- Decode the semicolon-separated line chunks. -/
def decodeLinesGo (st : DState) : List (List Char) → Option (List (List Segment))
  | [] => some []
  | chunk :: rest =>
      match decodeLine st chunk with
      | none => none
      | some (line, st2) =>
        match decodeLinesGo st2 rest with
        | none => none
        | some ls => some (line :: ls)

/-- Decode a mappings string into the segment container. -/
def decodeMappings (s : String) : Option (List (List Segment)) :=
  decodeLinesGo DState.init (splitChar (Char.ofNat 59) s.toList)

/-- Largest absolute field value representable in the 32-bit signed VLQ
range. -/
def fieldMax : Nat := 2 ^ 31 - 1

/-- All fields of a segment within the 32-bit range. -/
def segBounded : Segment → Bool
  | .hole g => g ≤ fieldMax
  | .seg4 g s l c => g ≤ fieldMax && s ≤ fieldMax && l ≤ fieldMax && c ≤ fieldMax
  | .seg5 g s l c n => g ≤ fieldMax && s ≤ fieldMax && l ≤ fieldMax &&
      c ≤ fieldMax && n ≤ fieldMax

/-- All segments of all lines within the 32-bit range. -/
def linesBounded (lines : List (List Segment)) : Bool :=
  lines.all (fun line => line.all segBounded)

/-- Running state within the 32-bit range. -/
def stBounded (st : DState) : Bool :=
  st.src ≤ fieldMax && st.oLine ≤ fieldMax && st.oCol ≤ fieldMax && st.name ≤ fieldMax

/-! ## Round trip of the segment-stream codec -/

theorem encodeNatVLQ_ne_nil (v : Nat) : encodeNatVLQ v ≠ [] := by
  rw [encodeNatVLQ]
  cases v with
  | zero => exact List.cons_ne_nil _ _
  | succ v =>
    rw [encodeNatVLQGo]
    by_cases h : v + 1 < 32
    · rw [if_pos h]; exact List.cons_ne_nil _ _
    · rw [if_neg h]; exact List.cons_ne_nil _ _

theorem encodeVLQ_ne_nil (n : Int) : encodeVLQ n ≠ [] :=
  encodeNatVLQ_ne_nil _

theorem encodeVLQ_chars {n : Int} {c : Char} (h : c ∈ encodeVLQ n) :
    c ≠ Char.ofNat 59 ∧ c ≠ Char.ofNat 44 :=
  encodeNatVLQ_chars _ c h

theorem natAbs_sub_le (a b : Nat) (ha : a ≤ fieldMax) (hb : b ≤ fieldMax) :
    ((a : Int) - (b : Int)).natAbs ≤ 2 ^ 31 - 1 := by
  have : fieldMax = 2 ^ 31 - 1 := rfl
  omega

theorem splitCharAux_no_delim (d : Char) :
    ∀ (cs acc : List Char), d ∉ cs →
      splitCharAux d cs acc = [acc.reverse ++ cs] := by
  intro cs
  induction cs with
  | nil => intro acc _; simp [splitCharAux]
  | cons c cs ih =>
    intro acc hfree
    have hcd : c ≠ d := fun h => hfree (h ▸ List.mem_cons_self c cs)
    rw [splitCharAux, if_neg hcd, ih (c :: acc) (fun h => hfree (List.mem_cons_of_mem _ h))]
    simp

theorem splitCharAux_with_delim (d : Char) :
    ∀ (cs acc rest : List Char), d ∉ cs →
      splitCharAux d (cs ++ d :: rest) acc =
        (acc.reverse ++ cs) :: splitCharAux d rest [] := by
  intro cs
  induction cs with
  | nil =>
    intro acc rest _
    simp [splitCharAux]
  | cons c cs ih =>
    intro acc rest hfree
    have hcd : c ≠ d := fun h => hfree (h ▸ List.mem_cons_self c cs)
    rw [List.cons_append, splitCharAux, if_neg hcd,
      ih (c :: acc) rest (fun h => hfree (List.mem_cons_of_mem _ h))]
    simp

theorem splitChar_joinChar (d : Char) :
    ∀ (chunks : List (List Char)), chunks ≠ [] →
      (∀ c ∈ chunks, d ∉ c) →
      splitChar d (joinChar d chunks) = chunks := by
  intro chunks
  induction chunks with
  | nil => intro h; exact absurd rfl h
  | cons c rest ih =>
    intro _ hfree
    cases rest with
    | nil =>
      rw [joinChar, splitChar,
        splitCharAux_no_delim d c [] (hfree c (List.mem_cons_self _ _))]
      simp
    | cons c2 rest2 =>
      rw [joinChar, splitChar,
        splitCharAux_with_delim d c [] _ (hfree c (List.mem_cons_self _ _))]
      have := ih (List.cons_ne_nil _ _)
        (fun x hx => hfree x (List.mem_cons_of_mem _ hx))
      rw [splitChar] at this
      rw [this]
      simp

theorem segBounded_genCol {sg : Segment} (h : segBounded sg = true) :
    sg.genCol ≤ fieldMax := by
  cases sg <;>
    simp only [segBounded, Segment.genCol, Bool.and_eq_true, decide_eq_true_eq] at h ⊢ <;>
    omega

theorem encodeSeg_chars {gPrev : Nat} {st : DState} {sg : Segment} {c : Char}
    (h : c ∈ (encodeSeg gPrev st sg).1) :
    c ≠ Char.ofNat 59 ∧ c ≠ Char.ofNat 44 := by
  cases sg with
  | hole g =>
    exact encodeVLQ_chars h
  | seg4 g s l c4 =>
    simp only [encodeSeg, List.mem_append] at h
    rcases h with h | h | h | h <;> exact encodeVLQ_chars h
  | seg5 g s l c5 n =>
    simp only [encodeSeg, List.mem_append] at h
    rcases h with h | h | h | h | h <;> exact encodeVLQ_chars h

theorem encodeSeg_ne_nil (gPrev : Nat) (st : DState) (sg : Segment) :
    (encodeSeg gPrev st sg).1 ≠ [] := by
  cases sg with
  | hole g => exact encodeVLQ_ne_nil _
  | seg4 g s l c =>
    simp only [encodeSeg]
    intro h
    rcases List.append_eq_nil.mp h with ⟨h1, _⟩
    exact encodeVLQ_ne_nil _ h1
  | seg5 g s l c n =>
    simp only [encodeSeg]
    intro h
    rcases List.append_eq_nil.mp h with ⟨h1, _⟩
    exact encodeVLQ_ne_nil _ h1

theorem stBounded_iff (st : DState) :
    stBounded st = true ↔
      st.src ≤ fieldMax ∧ st.oLine ≤ fieldMax ∧ st.oCol ≤ fieldMax ∧
        st.name ≤ fieldMax := by
  simp [stBounded, Bool.and_eq_true, decide_eq_true_eq, and_assoc]

/-- Decoding the encoding of one segment recovers the segment, the new
previous column and the new running state. -/
theorem decodeSeg_encodeSeg (gPrev : Nat) (st : DState) (sg : Segment)
    (hsg : segBounded sg = true) (hst : stBounded st = true)
    (hg : gPrev ≤ fieldMax) :
    decodeSeg gPrev st (encodeSeg gPrev st sg).1 =
      some (sg, (encodeSeg gPrev st sg).2) := by
  obtain ⟨hsrc, holine, hocol, hname⟩ := (stBounded_iff st).mp hst
  cases sg with
  | hole g =>
    have hb : g ≤ fieldMax := by
      simpa [segBounded, decide_eq_true_eq] using hsg
    have p1 : parseVLQ (encodeVLQ ((g : Int) - gPrev)) =
        some ((g : Int) - gPrev, []) := by
      have := parseVLQ_encodeVLQ ((g : Int) - gPrev)
        (natAbs_sub_le g gPrev hb hg) []
      rwa [List.append_nil] at this
    have he : (gPrev : Int) + ((g : Int) - gPrev) = (g : Int) := by ring
    simp only [encodeSeg, decodeSeg, parseSegFields, p1, eq_self_iff_true,
      if_true, applySegFields, he]
    rw [if_neg (by omega : ¬ (g : Int) < 0)]
    simp [Int.toNat_natCast]
  | seg4 g s l c =>
    have hb : g ≤ fieldMax ∧ s ≤ fieldMax ∧ l ≤ fieldMax ∧ c ≤ fieldMax := by
      simpa [segBounded, Bool.and_eq_true, decide_eq_true_eq, and_assoc] using hsg
    have h1ne : (encodeVLQ ((s : Int) - st.src) ++
        (encodeVLQ ((l : Int) - st.oLine) ++
          encodeVLQ ((c : Int) - st.oCol))) = [] ↔ False := by
      simp only [iff_false]
      intro h
      rcases List.append_eq_nil.mp h with ⟨h1, _⟩
      exact encodeVLQ_ne_nil _ h1
    have p1 : parseVLQ (encodeVLQ ((g : Int) - gPrev) ++
        (encodeVLQ ((s : Int) - st.src) ++
          (encodeVLQ ((l : Int) - st.oLine) ++
            encodeVLQ ((c : Int) - st.oCol)))) =
        some ((g : Int) - gPrev,
          encodeVLQ ((s : Int) - st.src) ++
            (encodeVLQ ((l : Int) - st.oLine) ++
              encodeVLQ ((c : Int) - st.oCol))) :=
      parseVLQ_encodeVLQ _ (natAbs_sub_le g gPrev hb.1 hg) _
    have p2 : parseVLQ (encodeVLQ ((s : Int) - st.src) ++
        (encodeVLQ ((l : Int) - st.oLine) ++
          encodeVLQ ((c : Int) - st.oCol))) =
        some ((s : Int) - st.src,
          encodeVLQ ((l : Int) - st.oLine) ++
            encodeVLQ ((c : Int) - st.oCol)) :=
      parseVLQ_encodeVLQ _ (natAbs_sub_le s st.src hb.2.1 hsrc) _
    have p3 : parseVLQ (encodeVLQ ((l : Int) - st.oLine) ++
        encodeVLQ ((c : Int) - st.oCol)) =
        some ((l : Int) - st.oLine, encodeVLQ ((c : Int) - st.oCol)) :=
      parseVLQ_encodeVLQ _ (natAbs_sub_le l st.oLine hb.2.2.1 holine) _
    have p4 : parseVLQ (encodeVLQ ((c : Int) - st.oCol)) =
        some ((c : Int) - st.oCol, []) := by
      have := parseVLQ_encodeVLQ ((c : Int) - st.oCol)
        (natAbs_sub_le c st.oCol hb.2.2.2 hocol) []
      rwa [List.append_nil] at this
    have hg' : (gPrev : Int) + ((g : Int) - gPrev) = (g : Int) := by ring
    have hs' : (st.src : Int) + ((s : Int) - st.src) = (s : Int) := by ring
    have hl' : (st.oLine : Int) + ((l : Int) - st.oLine) = (l : Int) := by ring
    have hc' : (st.oCol : Int) + ((c : Int) - st.oCol) = (c : Int) := by ring
    simp only [encodeSeg, decodeSeg, parseSegFields, p1, p2, p3, p4, h1ne,
      if_false, eq_self_iff_true, if_true, applySegFields, hg', hs', hl', hc']
    rw [if_neg (by omega :
      ¬ ((g : Int) < 0 ∨ (s : Int) < 0 ∨ (l : Int) < 0 ∨ (c : Int) < 0))]
    simp [Int.toNat_natCast]
  | seg5 g s l c n =>
    have hb : g ≤ fieldMax ∧ s ≤ fieldMax ∧ l ≤ fieldMax ∧ c ≤ fieldMax ∧
        n ≤ fieldMax := by
      simpa [segBounded, Bool.and_eq_true, decide_eq_true_eq, and_assoc] using hsg
    have h1ne : (encodeVLQ ((s : Int) - st.src) ++
        (encodeVLQ ((l : Int) - st.oLine) ++
          (encodeVLQ ((c : Int) - st.oCol) ++
            encodeVLQ ((n : Int) - st.name)))) = [] ↔ False := by
      simp only [iff_false]
      intro h
      rcases List.append_eq_nil.mp h with ⟨h1, _⟩
      exact encodeVLQ_ne_nil _ h1
    have h4ne : (encodeVLQ ((n : Int) - st.name)) = [] ↔ False := by
      simp only [iff_false]
      exact encodeVLQ_ne_nil _
    have p1 : parseVLQ (encodeVLQ ((g : Int) - gPrev) ++
        (encodeVLQ ((s : Int) - st.src) ++
          (encodeVLQ ((l : Int) - st.oLine) ++
            (encodeVLQ ((c : Int) - st.oCol) ++
              encodeVLQ ((n : Int) - st.name))))) =
        some ((g : Int) - gPrev,
          encodeVLQ ((s : Int) - st.src) ++
            (encodeVLQ ((l : Int) - st.oLine) ++
              (encodeVLQ ((c : Int) - st.oCol) ++
                encodeVLQ ((n : Int) - st.name)))) :=
      parseVLQ_encodeVLQ _ (natAbs_sub_le g gPrev hb.1 hg) _
    have p2 : parseVLQ (encodeVLQ ((s : Int) - st.src) ++
        (encodeVLQ ((l : Int) - st.oLine) ++
          (encodeVLQ ((c : Int) - st.oCol) ++
            encodeVLQ ((n : Int) - st.name)))) =
        some ((s : Int) - st.src,
          encodeVLQ ((l : Int) - st.oLine) ++
            (encodeVLQ ((c : Int) - st.oCol) ++
              encodeVLQ ((n : Int) - st.name))) :=
      parseVLQ_encodeVLQ _ (natAbs_sub_le s st.src hb.2.1 hsrc) _
    have p3 : parseVLQ (encodeVLQ ((l : Int) - st.oLine) ++
        (encodeVLQ ((c : Int) - st.oCol) ++
          encodeVLQ ((n : Int) - st.name))) =
        some ((l : Int) - st.oLine,
          encodeVLQ ((c : Int) - st.oCol) ++
            encodeVLQ ((n : Int) - st.name)) :=
      parseVLQ_encodeVLQ _ (natAbs_sub_le l st.oLine hb.2.2.1 holine) _
    have p4 : parseVLQ (encodeVLQ ((c : Int) - st.oCol) ++
        encodeVLQ ((n : Int) - st.name)) =
        some ((c : Int) - st.oCol, encodeVLQ ((n : Int) - st.name)) :=
      parseVLQ_encodeVLQ _ (natAbs_sub_le c st.oCol hb.2.2.2.1 hocol) _
    have p5 : parseVLQ (encodeVLQ ((n : Int) - st.name)) =
        some ((n : Int) - st.name, []) := by
      have := parseVLQ_encodeVLQ ((n : Int) - st.name)
        (natAbs_sub_le n st.name hb.2.2.2.2 hname) []
      rwa [List.append_nil] at this
    have hg' : (gPrev : Int) + ((g : Int) - gPrev) = (g : Int) := by ring
    have hs' : (st.src : Int) + ((s : Int) - st.src) = (s : Int) := by ring
    have hl' : (st.oLine : Int) + ((l : Int) - st.oLine) = (l : Int) := by ring
    have hc' : (st.oCol : Int) + ((c : Int) - st.oCol) = (c : Int) := by ring
    have hn' : (st.name : Int) + ((n : Int) - st.name) = (n : Int) := by ring
    simp only [encodeSeg, decodeSeg, parseSegFields, p1, p2, p3, p4, p5,
      h1ne, h4ne, if_false, eq_self_iff_true, if_true, applySegFields,
      hg', hs', hl', hc', hn']
    rw [if_neg (by omega :
      ¬ ((g : Int) < 0 ∨ (s : Int) < 0 ∨ (l : Int) < 0 ∨ (c : Int) < 0 ∨
        (n : Int) < 0))]
    simp [Int.toNat_natCast]

theorem encodeSeg_snd_fst (gPrev : Nat) (st : DState) (sg : Segment) :
    (encodeSeg gPrev st sg).2.1 = sg.genCol := by
  cases sg <;> rfl

theorem encodeSeg_stBounded (gPrev : Nat) (st : DState) (sg : Segment)
    (hsg : segBounded sg = true) (hst : stBounded st = true) :
    stBounded (encodeSeg gPrev st sg).2.2 = true := by
  cases sg with
  | hole g => exact hst
  | seg4 g s l c =>
    simp only [segBounded, Bool.and_eq_true, decide_eq_true_eq] at hsg
    rw [stBounded_iff] at hst ⊢
    simp only [encodeSeg]
    exact ⟨hsg.1.1.2, hsg.1.2, hsg.2, hst.2.2.2⟩
  | seg5 g s l c n =>
    simp only [segBounded, Bool.and_eq_true, decide_eq_true_eq] at hsg
    rw [stBounded_iff]
    simp only [encodeSeg]
    exact ⟨hsg.1.1.1.2, hsg.1.1.2, hsg.1.2, hsg.2⟩

theorem decodeLineSegs_encodeSegChunks (line : List Segment) :
    ∀ (gPrev : Nat) (st : DState), line.all segBounded = true →
      stBounded st = true → gPrev ≤ fieldMax →
      decodeLineSegs gPrev st (encodeSegChunks gPrev st line).1 =
          some (line, (encodeSegChunks gPrev st line).2) ∧
        stBounded (encodeSegChunks gPrev st line).2 = true := by
  induction line with
  | nil => intro gPrev st _ hst _; exact ⟨rfl, hst⟩
  | cons sg rest ih =>
    intro gPrev st hall hst hg
    rw [List.all_cons, Bool.and_eq_true] at hall
    have hg2 : (encodeSeg gPrev st sg).2.1 ≤ fieldMax := by
      rw [encodeSeg_snd_fst]
      exact segBounded_genCol hall.1
    have hst2 := encodeSeg_stBounded gPrev st sg hall.1 hst
    have h2 := ih (encodeSeg gPrev st sg).2.1 (encodeSeg gPrev st sg).2.2
      hall.2 hst2 hg2
    simp only [encodeSegChunks]
    constructor
    · simp only [decodeLineSegs,
        decodeSeg_encodeSeg gPrev st sg hall.1 hst hg, h2.1]
    · exact h2.2

theorem encodeSegChunks_chars (line : List Segment) :
    ∀ (gPrev : Nat) (st : DState) (ch : List Char),
      ch ∈ (encodeSegChunks gPrev st line).1 →
      ∀ c ∈ ch, c ≠ Char.ofNat 59 ∧ c ≠ Char.ofNat 44 := by
  induction line with
  | nil => intro _ _ _ h; exact absurd h (List.not_mem_nil _)
  | cons sg rest ih =>
    intro gPrev st ch hch c hc
    simp only [encodeSegChunks] at hch
    rcases List.mem_cons.mp hch with rfl | hmem
    · exact encodeSeg_chars hc
    · exact ih _ _ ch hmem c hc

theorem mem_joinChar (d : Char) :
    ∀ (chunks : List (List Char)) (c : Char), c ∈ joinChar d chunks →
      c = d ∨ ∃ ch ∈ chunks, c ∈ ch := by
  intro chunks
  induction chunks with
  | nil => intro c h; exact absurd h (List.not_mem_nil _)
  | cons ch rest ih =>
    intro c h
    cases rest with
    | nil =>
      exact Or.inr ⟨ch, List.mem_cons_self _ _, h⟩
    | cons ch2 rest2 =>
      rw [joinChar] at h
      rcases List.mem_append.mp h with h1 | h2
      · exact Or.inr ⟨ch, List.mem_cons_self _ _, h1⟩
      · rcases List.mem_cons.mp h2 with rfl | h3
        · exact Or.inl rfl
        · rcases ih c h3 with h4 | ⟨ch3, hm, hc3⟩
          · exact Or.inl h4
          · exact Or.inr ⟨ch3, List.mem_cons_of_mem _ hm, hc3⟩

theorem joinChar_ne_nil (d : Char) (c1 : List Char) (cr : List (List Char))
    (h : c1 ≠ []) : joinChar d (c1 :: cr) ≠ [] := by
  cases cr with
  | nil => exact h
  | cons c2 r2 =>
    rw [joinChar]
    intro hx
    rcases List.append_eq_nil.mp hx with ⟨_, h2⟩
    exact List.cons_ne_nil _ _ h2

theorem decodeLine_of_ne_nil (st : DState) (chunk : List Char)
    (h : chunk ≠ []) :
    decodeLine st chunk = decodeLineSegs 0 st (splitChar (Char.ofNat 44) chunk) := by
  cases chunk with
  | nil => exact absurd rfl h
  | cons c cs => rfl

/-- Decoding the encoding of one line recovers the line and the running
state after it. -/
theorem decodeLine_encodeLine (st : DState) (line : List Segment)
    (hall : line.all segBounded = true) (hst : stBounded st = true) :
    decodeLine st (encodeLine st line).1 = some (line, (encodeLine st line).2) ∧
      stBounded (encodeLine st line).2 = true := by
  cases line with
  | nil => exact ⟨rfl, hst⟩
  | cons sg rest =>
    have hchunks := decodeLineSegs_encodeSegChunks (sg :: rest) 0 st hall hst
      (Nat.zero_le _)
    have hcons : (encodeSegChunks 0 st (sg :: rest)).1 =
        (encodeSeg 0 st sg).1 :: (encodeSegChunks (encodeSeg 0 st sg).2.1
          (encodeSeg 0 st sg).2.2 rest).1 := rfl
    have hne : (encodeLine st (sg :: rest)).1 ≠ [] := by
      simp only [encodeLine, hcons]
      exact joinChar_ne_nil _ _ _ (encodeSeg_ne_nil 0 st sg)
    have hfree : ∀ ch ∈ (encodeSegChunks 0 st (sg :: rest)).1,
        Char.ofNat 44 ∉ ch := by
      intro ch hch hc
      exact (encodeSegChunks_chars (sg :: rest) 0 st ch hch _ hc).2 rfl
    have hsplit : splitChar (Char.ofNat 44) (encodeLine st (sg :: rest)).1 =
        (encodeSegChunks 0 st (sg :: rest)).1 := by
      simp only [encodeLine]
      exact splitChar_joinChar _ _ (by rw [hcons]; exact List.cons_ne_nil _ _)
        hfree
    rw [decodeLine_of_ne_nil st _ hne, hsplit]
    exact ⟨by rw [hchunks.1]; rfl, hchunks.2⟩

theorem encodeLine_chars (st : DState) (line : List Segment) (c : Char)
    (h : c ∈ (encodeLine st line).1) : c ≠ Char.ofNat 59 := by
  simp only [encodeLine] at h
  rcases mem_joinChar _ _ c h with rfl | ⟨ch, hch, hc⟩
  · decide
  · exact (encodeSegChunks_chars line 0 st ch hch c hc).1

/-- Decoding the encoding of all lines recovers the lines. -/
theorem decodeLinesGo_encodeLineChunks (lines : List (List Segment)) :
    ∀ (st : DState), linesBounded lines = true → stBounded st = true →
      decodeLinesGo st (encodeLineChunks st lines).1 = some lines := by
  induction lines with
  | nil => intro st _ _; rfl
  | cons line rest ih =>
    intro st hb hst
    rw [linesBounded, List.all_cons, Bool.and_eq_true] at hb
    have hline := decodeLine_encodeLine st line hb.1 hst
    have hrest := ih (encodeLine st line).2 hb.2 hline.2
    simp only [encodeLineChunks]
    simp only [decodeLinesGo, hline.1, hrest]

theorem encodeLineChunks_ne_nil (st : DState) (line : List Segment)
    (rest : List (List Segment)) :
    (encodeLineChunks st (line :: rest)).1 ≠ [] := by
  simp only [encodeLineChunks]
  exact List.cons_ne_nil _ _

theorem encodeLineChunks_chars (lines : List (List Segment)) :
    ∀ (st : DState) (ch : List Char), ch ∈ (encodeLineChunks st lines).1 →
      Char.ofNat 59 ∉ ch := by
  induction lines with
  | nil => intro _ _ h; exact absurd h (List.not_mem_nil _)
  | cons line rest ih =>
    intro st ch hch hc
    simp only [encodeLineChunks] at hch
    rcases List.mem_cons.mp hch with rfl | hmem
    · exact encodeLine_chars st line _ hc rfl
    · exact ih _ ch hmem hc

/-- Round trip of the whole mappings string: decoding the serialization
of a non-empty bounded segment container recovers the container. -/
theorem decodeMappings_encodeMappings (lines : List (List Segment))
    (hne : lines ≠ []) (hb : linesBounded lines = true) :
    decodeMappings (encodeMappings lines) = some lines := by
  have hdata : (encodeMappings lines).toList =
      joinChar (Char.ofNat 59) (encodeLineChunks DState.init lines).1 := rfl
  rw [decodeMappings, hdata]
  have hchunksne : (encodeLineChunks DState.init lines).1 ≠ [] := by
    cases lines with
    | nil => exact absurd rfl hne
    | cons line rest => exact encodeLineChunks_ne_nil _ _ _
  rw [splitChar_joinChar _ _ hchunksne
    (fun ch hch hc => encodeLineChunks_chars lines DState.init ch hch hc)]
  exact decodeLinesGo_encodeLineChunks lines DState.init hb
    (by rw [stBounded_iff]; exact ⟨Nat.zero_le _, Nat.zero_le _, Nat.zero_le _, Nat.zero_le _⟩)

/-! ## Source maps and the Consumer

Modelled from the spec: the parsed map model and the Consumer (sections 3
and 4.D); the implementation is not under src/ (only its test suite is).
A parsed map is either flat (mappings + sources + names and the optional
x_facebook_sources channel, a list parallel to sources whose entries are
null or metadata items) or indexed (offset-positioned sections).  The
external format allows sections to nest recursively; every map the
repository exercises nests exactly one level (a section whose map is
flat), which is the shape embedded here.  Offsets are 0-based while
query lines are 1-based, and a section at offset (0,0) is the identity
wrapping, as required by the indexed-equivalence property and by the
x_facebook_sources test in the repository. -/

/-- One x_facebook_sources metadata item. -/
structure FbItem where
  names : List String
  mappings : String
deriving DecidableEq, Repr

/-- The metadata carried for one source: a list of items (a null entry is
represented as `none` one level up). -/
abbrev FbMeta := List FbItem

/-- A flat source map: a mappings string with its string tables and the
optional x_facebook_sources channel. -/
structure FlatMap where
  mappings : String
  sources : List String
  names : List String
  fb : List (Option FbMeta)
deriving DecidableEq, Repr

/-- A parsed source map: flat, or indexed with offset-positioned
sections. -/
inductive SourceMap where
  | flat (m : FlatMap)
  | indexed (sections : List (Nat × Nat × FlatMap))
deriving DecidableEq, Repr

/-- A decoded flat map: the segment container with its string tables. -/
structure FlatPart where
  lines : List (List Segment)
  sources : List String
  names : List String
  fb : List (Option FbMeta)
deriving DecidableEq, Repr

/-- A consumer: a decoded flat map, or offset-positioned decoded
sections. -/
inductive Consumer where
  | flat (p : FlatPart)
  | indexed (sections : List (Nat × Nat × FlatPart))
deriving DecidableEq, Repr

/-- An original position: source, 1-based line, 0-based column, optional
name. -/
structure Original where
  source : String
  line : Nat
  col : Nat
  name : Option String
deriving DecidableEq, Repr

/-- The greatest segment whose generated column is at most the queried
column (floor semantics over the ascending per-line order). -/
def floorSeg (segs : List Segment) (col : Nat) : Option Segment :=
  segs.foldl (fun acc sg => if sg.genCol ≤ col then some sg else acc) none

/-- Query a decoded flat map: select the 1-based line, take the floor
segment of the queried column, and resolve the string tables; a hole, a
missing line, a missing floor segment or an out-of-range source index is
unmapped. -/
def flatQuery (p : FlatPart) (line col : Nat) : Option Original :=
  match line with
  | 0 => none
  | l + 1 =>
    match p.lines[l]? with
    | none => none
    | some segs =>
      match floorSeg segs col with
      | none => none
      | some (.hole _) => none
      | some (.seg4 _ s ol oc) =>
        match p.sources[s]? with
        | none => none
        | some src => some ⟨src, ol + 1, oc, none⟩
      | some (.seg5 _ s ol oc n) =>
        match p.sources[s]? with
        | none => none
        | some src => some ⟨src, ol + 1, oc, p.names[n]?⟩

/-- Does the section starting at 0-based offset (ol, oc) start at or
before the 1-based generated position (line, col)? -/
def sectionLE (ol oc line col : Nat) : Bool :=
  ol + 1 < line || (ol + 1 = line && oc ≤ col)

/-- The last section whose offset is at most the queried position. -/
def pickSection (sections : List (Nat × Nat × FlatPart)) (line col : Nat) :
    Option (Nat × Nat × FlatPart) :=
  sections.foldl
    (fun acc s => if sectionLE s.1 s.2.1 line col then some s else acc) none

/-- The originalPositionFor query: flat maps query directly; indexed maps
dispatch to the last section whose offset is at most the query, rebasing
the line always and the column only on the section's first line. -/
def Consumer.query : Consumer → Nat → Nat → Option Original
  | .flat p, line, col => flatQuery p line col
  | .indexed sections, line, col =>
    match pickSection sections line col with
    | none => none
    | some (ol, oc, p) =>
      flatQuery p (line - ol) (if line = ol + 1 then col - oc else col)

/-- Decode a flat map into its queryable part. -/
def buildFlatPart (m : FlatMap) : Option FlatPart :=
  match decodeMappings m.mappings with
  | none => none
  | some lines => some ⟨lines, m.sources, m.names, m.fb⟩

/-- Decode every section of an indexed map. -/
def buildSections : List (Nat × Nat × FlatMap) → Option (List (Nat × Nat × FlatPart))
  | [] => some []
  | (ol, oc, m) :: rest =>
    match buildFlatPart m with
    | none => none
    | some p =>
      match buildSections rest with
      | none => none
      | some ps => some ((ol, oc, p) :: ps)

/-- Construct a Consumer from a parsed map; decode errors propagate. -/
def buildConsumer : SourceMap → Option Consumer
  | .flat m => (buildFlatPart m).map .flat
  | .indexed sections => (buildSections sections).map .indexed

/-- The x_facebook_sources entry a decoded flat map carries for a source
(null when the source is unknown or the channel has no entry). -/
def FlatPart.metadataFor (p : FlatPart) (s : String) : Option FbMeta :=
  match p.sources.findIdx? (fun x => x = s) with
  | none => none
  | some i => (p.fb[i]?).getD none

/-- The x_facebook_sources entry a consumer carries for a source: for
indexed maps, the entry of the first section whose sources contain it. -/
def Consumer.metadataFor : Consumer → String → Option FbMeta
  | .flat p, s => p.metadataFor s
  | .indexed sections, s =>
    (sections.foldl
      (fun acc sec =>
        match acc with
        | some r => some r
        | none =>
          match sec.2.2.sources.findIdx? (fun x => x = s) with
          | none => none
          | some i => some ((sec.2.2.fb[i]?).getD none))
      none).getD none

/-! ## The composition engine

Modelled from the spec: composeSourceMaps (section 4.E); the
implementation is not under src/ (only its test suite is).  The maps are
applied in order, the last map is iterated and the earlier maps are
consumed; each mapped segment of the tail map is folded back through the
chain of consumers; a hole anywhere yields a hole in the output; the
name that survives is the one of the deepest stage that has one, falling
back to shallower stages (pinned by the repository's own expected
outputs, which retain the first map's name over the tail map's); fresh
string tables are built in first-seen order; the x_facebook_sources
entry of every retained source is copied from the first map's consumer,
the unique provider of output sources.  Values outside the 32-bit VLQ
range fail composition, reflecting the codec's range invariant. -/

/-- Intern a string into a first-seen-order table. -/
def intern (seen : List String) (s : String) : List String :=
  if s ∈ seen then seen else seen ++ [s]

/-- Index of the first occurrence of a string in a table. -/
def idxOf (s : String) : List String → Nat
  | [] => 0
  | x :: xs => if x = s then 0 else idxOf s xs + 1

/-- The original position seeded from a mapped segment of the tail map;
a hole or an out-of-range source index seeds nothing. -/
def seedOf (tsrc tnames : List String) : Segment → Option Original
  | .hole _ => none
  | .seg4 _ s l c =>
    match tsrc[s]? with
    | none => none
    | some src => some ⟨src, l + 1, c, none⟩
  | .seg5 _ s l c n =>
    match tsrc[s]? with
    | none => none
    | some src => some ⟨src, l + 1, c, tnames[n]?⟩

/-- Fold an original position back through the chain of consumers,
nearest-to-tail first: each step re-queries the next consumer at the
current line and column; an unmapped answer aborts the fold, and a
non-null name from a deeper stage overrides the name carried so far. -/
def foldChain : List Consumer → Original → Option Original
  | [], o => some o
  | c :: rest, o =>
    match c.query o.line o.col with
    | none => none
    | some r => foldChain rest ⟨r.source, r.line, r.col,
        r.name.orElse (fun _ => o.name)⟩

/-- An output segment before index interning: a hole, or a mapped
position carrying the resolved strings (original line stored 0-based). -/
inductive OutSeg where
  | hole (genCol : Nat)
  | mapped (genCol : Nat) (source : String) (oLine0 oCol : Nat)
      (name : Option String)
deriving DecidableEq, Repr

/-- Compose one segment of the tail map: holes stay holes, and a fold
that aborts produces a hole at the same generated column. -/
def composeSeg (chain : List Consumer) (tsrc tnames : List String)
    (sg : Segment) : OutSeg :=
  match seedOf tsrc tnames sg with
  | none => .hole sg.genCol
  | some o =>
    match foldChain chain o with
    | none => .hole sg.genCol
    | some r => .mapped sg.genCol r.source (r.line - 1) r.col r.name

/-- Intern the source of one output segment. -/
def internSegSrc (acc : List String) (sg : OutSeg) : List String :=
  match sg with
  | .hole _ => acc
  | .mapped _ src _ _ _ => intern acc src

/-- Intern the name of one output segment, when it has one. -/
def internSegName (acc : List String) (sg : OutSeg) : List String :=
  match sg with
  | .mapped _ _ _ _ (some nm) => intern acc nm
  | _ => acc

/-- Collect the output sources table in first-seen order. -/
def collectSources (ls : List (List OutSeg)) : List String :=
  ls.foldl (fun acc line => line.foldl internSegSrc acc) []

/-- Collect the output names table in first-seen order. -/
def collectNames (ls : List (List OutSeg)) : List String :=
  ls.foldl (fun acc line => line.foldl internSegName acc) []

/-- Replace resolved strings by their interned indices. -/
def outSegToSeg (srcs nms : List String) : OutSeg → Segment
  | .hole g => .hole g
  | .mapped g src l c none => .seg4 g (idxOf src srcs) l c
  | .mapped g src l c (some nm) => .seg5 g (idxOf src srcs) l c (idxOf nm nms)

/-- The x_facebook_sources entry for a retained output source: copied
from the first map (the consumers are held nearest-to-tail first, so the
first map is the last consumer; with a single input map, from that map
itself). -/
def providerMeta (chain : List Consumer) (tailPart : FlatPart)
    (s : String) : Option FbMeta :=
  match chain.getLast? with
  | none => tailPart.metadataFor s
  | some c0 => c0.metadataFor s

/-- Build the chain of consumers from a list of maps, failing when any
map does not decode. -/
def buildChain : List SourceMap → Option (List Consumer)
  | [] => some []
  | m :: rest =>
    match buildConsumer m with
    | none => none
    | some c =>
      match buildChain rest with
      | none => none
      | some cs => some (c :: cs)

/-- Every line of the tail map composed through the chain. -/
def composedOutLines (chain : List Consumer) (tsrc tnames : List String)
    (tailLines : List (List Segment)) : List (List OutSeg) :=
  tailLines.map (fun line => line.map (composeSeg chain tsrc tnames))

/-- The composed output before serialization: every line of the tail map
composed through the chain, with fresh interned string tables and the
copied x_facebook_sources channel. -/
def composeParts (chain : List Consumer) (tm : FlatMap)
    (tailLines : List (List Segment)) : FlatPart :=
  ⟨(composedOutLines chain tm.sources tm.names tailLines).map
      (fun line => line.map (outSegToSeg
        (collectSources (composedOutLines chain tm.sources tm.names tailLines))
        (collectNames (composedOutLines chain tm.sources tm.names tailLines)))),
    collectSources (composedOutLines chain tm.sources tm.names tailLines),
    collectNames (composedOutLines chain tm.sources tm.names tailLines),
    (collectSources (composedOutLines chain tm.sources tm.names tailLines)).map
      (providerMeta chain ⟨tailLines, tm.sources, tm.names, tm.fb⟩)⟩

/-- Compose a non-empty list of parsed source maps into one flat map.
The consumers of all maps but the last are held nearest-to-tail first.
Fails on an empty list, an indexed tail map, a map that does not decode,
or output values outside the 32-bit VLQ range. -/
def composeSourceMaps (maps : List SourceMap) : Option SourceMap :=
  match maps.getLast? with
  | none => none
  | some (.indexed _) => none
  | some (.flat tm) =>
    match decodeMappings tm.mappings with
    | none => none
    | some tailLines =>
      match buildChain maps.dropLast.reverse with
      | none => none
      | some chain =>
        let p := composeParts chain tm tailLines
        if linesBounded p.lines then
          some (.flat ⟨encodeMappings p.lines, p.sources, p.names, p.fb⟩)
        else none

/-- Symbolicate one backtrace frame (line, col) against one map: build
the consumer, query it, and keep the (source, line, column) triple that
the symbolicator splices back into the frame text. -/
def symbolicateFrame (m : SourceMap) (line col : Nat) :
    Option (String × Nat × Nat) :=
  match buildConsumer m with
  | none => none
  | some c => (c.query line col).map (fun o => (o.source, o.line, o.col))

/-- Symbolicate one frame serially through a list of maps (given in
application order for symbolication, i.e. last-applied map first): each
stage re-queries the next map at the line and column the previous stage
returned. -/
def serialSymbolicate : List SourceMap → Nat → Nat → Option (String × Nat × Nat)
  | [], _, _ => none
  | [m], line, col => symbolicateFrame m line col
  | m :: m2 :: rest, line, col =>
    match symbolicateFrame m line col with
    | none => none
    | some (_, l2, c2) => serialSymbolicate (m2 :: rest) l2 c2

/-! ## Correctness of the composition engine -/

/-- The semantic lookup the composed map must implement: floor the tail
map's line, seed from the floor segment, fold through the chain. -/
def composedLookup (chain : List Consumer) (tsrc tnames : List String)
    (tailLines : List (List Segment)) (L C : Nat) : Option Original :=
  match L with
  | 0 => none
  | l + 1 =>
    match tailLines[l]? with
    | none => none
    | some tline =>
      match floorSeg tline C with
      | none => none
      | some tseg =>
        match seedOf tsrc tnames tseg with
        | none => none
        | some o => foldChain chain o

theorem floorSeg_go_map {f : Segment → Segment}
    (hf : ∀ sg, (f sg).genCol = sg.genCol) (col : Nat) :
    ∀ (segs : List Segment) (acc : Option Segment),
      (segs.map f).foldl
          (fun a sg => if sg.genCol ≤ col then some sg else a) (acc.map f) =
        (segs.foldl
          (fun a sg => if sg.genCol ≤ col then some sg else a) acc).map f := by
  intro segs
  induction segs with
  | nil => intro acc; rfl
  | cons sg rest ih =>
    intro acc
    simp only [List.map_cons, List.foldl_cons, hf sg]
    by_cases h : sg.genCol ≤ col
    · rw [if_pos h, if_pos h]
      have := ih (some sg)
      simpa using this
    · rw [if_neg h, if_neg h]
      exact ih acc

/-- Floor search commutes with a generated-column-preserving map. -/
theorem floorSeg_map {f : Segment → Segment}
    (hf : ∀ sg, (f sg).genCol = sg.genCol) (segs : List Segment) (col : Nat) :
    floorSeg (segs.map f) col = (floorSeg segs col).map f := by
  have := floorSeg_go_map hf col segs none
  simpa [floorSeg] using this

theorem floorSeg_go_mem (col : Nat) :
    ∀ (segs : List Segment) (acc : Option Segment) (sg : Segment),
      segs.foldl (fun a s => if s.genCol ≤ col then some s else a) acc =
          some sg →
        acc = some sg ∨ sg ∈ segs := by
  intro segs
  induction segs with
  | nil => intro acc sg h; exact Or.inl h
  | cons s rest ih =>
    intro acc sg h
    rw [List.foldl_cons] at h
    by_cases hc : s.genCol ≤ col
    · rw [if_pos hc] at h
      rcases ih (some s) sg h with h1 | h2
      · rcases Option.some_injective _ h1 with rfl
        exact Or.inr (List.mem_cons_self _ _)
      · exact Or.inr (List.mem_cons_of_mem _ h2)
    · rw [if_neg hc] at h
      rcases ih acc sg h with h1 | h2
      · exact Or.inl h1
      · exact Or.inr (List.mem_cons_of_mem _ h2)

/-- The floor segment is one of the line's segments. -/
theorem floorSeg_mem {segs : List Segment} {col : Nat} {sg : Segment}
    (h : floorSeg segs col = some sg) : sg ∈ segs := by
  rcases floorSeg_go_mem col segs none sg h with h1 | h2
  · exact absurd h1 (by simp)
  · exact h2

/-- Composing and interning preserves the generated column. -/
theorem composeSeg_genCol (chain : List Consumer) (tsrc tnames srcs nms : List String)
    (sg : Segment) :
    (outSegToSeg srcs nms (composeSeg chain tsrc tnames sg)).genCol = sg.genCol := by
  unfold composeSeg
  cases hs : seedOf tsrc tnames sg with
  | none => cases sg <;> rfl
  | some o =>
    cases hf : foldChain chain o with
    | none =>
      simp only [hf]
      cases sg <;> rfl
    | some r =>
      simp only [hf]
      cases hr : r.name <;> cases sg <;>
        simp [outSegToSeg, Segment.genCol, hr]

theorem mem_intern_self (acc : List String) (s : String) : s ∈ intern acc s := by
  unfold intern
  by_cases h : s ∈ acc
  · rw [if_pos h]; exact h
  · rw [if_neg h]; exact List.mem_append.mpr (Or.inr (List.mem_singleton.mpr rfl))

theorem mem_intern_of_mem (acc : List String) (s x : String) (h : x ∈ acc) :
    x ∈ intern acc s := by
  unfold intern
  by_cases hc : s ∈ acc
  · rw [if_pos hc]; exact h
  · rw [if_neg hc]; exact List.mem_append.mpr (Or.inl h)

theorem get?_idxOf (s : String) :
    ∀ (l : List String), s ∈ l → l[idxOf s l]? = some s := by
  intro l
  induction l with
  | nil => intro h; exact absurd h (List.not_mem_nil _)
  | cons x xs ih =>
    intro h
    by_cases hx : x = s
    · subst hx
      simp [idxOf]
    · rw [idxOf, if_neg hx]
      have hm : s ∈ xs := by
        rcases List.mem_cons.mp h with h1 | h2
        · exact absurd h1.symm hx
        · exact h2
      simpa using ih hm

theorem internSegSrc_sub (x : String) :
    ∀ (line : List OutSeg) (acc : List String), x ∈ acc →
      x ∈ line.foldl internSegSrc acc := by
  intro line
  induction line with
  | nil => intro acc h; exact h
  | cons sg rest ih =>
    intro acc h
    rw [List.foldl_cons]
    refine ih _ ?_
    cases sg with
    | hole g => exact h
    | mapped g src l c nm => exact mem_intern_of_mem _ _ _ h

theorem internSegName_sub (x : String) :
    ∀ (line : List OutSeg) (acc : List String), x ∈ acc →
      x ∈ line.foldl internSegName acc := by
  intro line
  induction line with
  | nil => intro acc h; exact h
  | cons sg rest ih =>
    intro acc h
    rw [List.foldl_cons]
    refine ih _ ?_
    cases sg with
    | hole g => exact h
    | mapped g src l c nm =>
      cases nm with
      | none => exact h
      | some n => exact mem_intern_of_mem _ _ _ h

theorem mem_lineFold_src (g : Nat) (src : String) (l c : Nat)
    (nm : Option String) :
    ∀ (line : List OutSeg) (acc : List String),
      OutSeg.mapped g src l c nm ∈ line →
        src ∈ line.foldl internSegSrc acc := by
  intro line
  induction line with
  | nil => intro acc h; exact absurd h (List.not_mem_nil _)
  | cons sg rest ih =>
    intro acc h
    rw [List.foldl_cons]
    rcases List.mem_cons.mp h with rfl | h2
    · exact internSegSrc_sub _ rest _ (mem_intern_self _ _)
    · exact ih _ h2

theorem mem_lineFold_name (g : Nat) (src : String) (l c : Nat) (nm : String) :
    ∀ (line : List OutSeg) (acc : List String),
      OutSeg.mapped g src l c (some nm) ∈ line →
        nm ∈ line.foldl internSegName acc := by
  intro line
  induction line with
  | nil => intro acc h; exact absurd h (List.not_mem_nil _)
  | cons sg rest ih =>
    intro acc h
    rw [List.foldl_cons]
    rcases List.mem_cons.mp h with rfl | h2
    · exact internSegName_sub _ rest _ (mem_intern_self _ _)
    · exact ih _ h2

theorem mem_collectSources {ls : List (List OutSeg)} {line : List OutSeg}
    {g : Nat} {src : String} {l c : Nat} {nm : Option String}
    (hline : line ∈ ls) (hsg : OutSeg.mapped g src l c nm ∈ line) :
    src ∈ collectSources ls := by
  unfold collectSources
  suffices h : ∀ (lls : List (List OutSeg)) (acc : List String),
      (line ∈ lls → src ∈ lls.foldl (fun a li => li.foldl internSegSrc a) acc) ∧
      (src ∈ acc → src ∈ lls.foldl (fun a li => li.foldl internSegSrc a) acc) by
    exact (h ls []).1 hline
  intro lls
  induction lls with
  | nil =>
    intro acc
    exact ⟨fun h => absurd h (List.not_mem_nil _), fun h => h⟩
  | cons li rest ih =>
    intro acc
    constructor
    · intro hmem
      rw [List.foldl_cons]
      rcases List.mem_cons.mp hmem with heq | h2
      · refine (ih _).2 ?_
        have h3 : OutSeg.mapped g src l c nm ∈ li := by
          rw [← heq]; exact hsg
        exact mem_lineFold_src g src l c nm li acc h3
      · exact (ih _).1 h2
    · intro hacc
      rw [List.foldl_cons]
      exact (ih _).2 (internSegSrc_sub _ li acc hacc)

theorem mem_collectNames {ls : List (List OutSeg)} {line : List OutSeg}
    {g : Nat} {src : String} {l c : Nat} {nm : String}
    (hline : line ∈ ls) (hsg : OutSeg.mapped g src l c (some nm) ∈ line) :
    nm ∈ collectNames ls := by
  unfold collectNames
  suffices h : ∀ (lls : List (List OutSeg)) (acc : List String),
      (line ∈ lls → nm ∈ lls.foldl (fun a li => li.foldl internSegName a) acc) ∧
      (nm ∈ acc → nm ∈ lls.foldl (fun a li => li.foldl internSegName a) acc) by
    exact (h ls []).1 hline
  intro lls
  induction lls with
  | nil =>
    intro acc
    exact ⟨fun h => absurd h (List.not_mem_nil _), fun h => h⟩
  | cons li rest ih =>
    intro acc
    constructor
    · intro hmem
      rw [List.foldl_cons]
      rcases List.mem_cons.mp hmem with heq | h2
      · refine (ih _).2 ?_
        have h3 : OutSeg.mapped g src l c (some nm) ∈ li := by
          rw [← heq]; exact hsg
        exact mem_lineFold_name g src l c nm li acc h3
      · exact (ih _).1 h2
    · intro hacc
      rw [List.foldl_cons]
      exact (ih _).2 (internSegName_sub _ li acc hacc)

theorem flatQuery_line_pos {p : FlatPart} {line col : Nat} {r : Original}
    (h : flatQuery p line col = some r) : 1 ≤ r.line := by
  cases line with
  | zero => simp [flatQuery] at h
  | succ l =>
    simp only [flatQuery] at h
    repeat' split at h
    all_goals try (rcases Option.some_injective _ h with rfl
                   exact Nat.le_add_left 1 _)
    all_goals simp at h

theorem query_line_pos {c : Consumer} {line col : Nat} {r : Original}
    (h : c.query line col = some r) : 1 ≤ r.line := by
  cases c with
  | flat p => exact flatQuery_line_pos h
  | indexed sections =>
    simp only [Consumer.query] at h
    repeat' split at h
    all_goals first
      | simp at h
      | exact flatQuery_line_pos h

theorem foldChain_line_pos :
    ∀ (chain : List Consumer) (o : Original) (r : Original),
      1 ≤ o.line → foldChain chain o = some r → 1 ≤ r.line := by
  intro chain
  induction chain with
  | nil =>
    intro o r ho h
    rcases Option.some_injective _ h with rfl
    exact ho
  | cons c rest ih =>
    intro o r ho h
    simp only [foldChain] at h
    cases hq : c.query o.line o.col with
    | none => simp [hq] at h
    | some q =>
      simp only [hq] at h
      have hql : 1 ≤ q.line := query_line_pos hq
      exact ih ⟨q.source, q.line, q.col, q.name.orElse fun _ => o.name⟩ r hql h

theorem seedOf_line_pos {tsrc tnames : List String} {sg : Segment}
    {o : Original} (h : seedOf tsrc tnames sg = some o) : 1 ≤ o.line := by
  cases sg with
  | hole g => simp [seedOf] at h
  | seg4 g s l c =>
    simp only [seedOf] at h
    repeat' split at h
    all_goals try (rcases Option.some_injective _ h with rfl
                   exact Nat.le_add_left 1 _)
    all_goals simp at h
  | seg5 g s l c n =>
    simp only [seedOf] at h
    repeat' split at h
    all_goals try (rcases Option.some_injective _ h with rfl
                   exact Nat.le_add_left 1 _)
    all_goals simp at h

/-- The composed, interned and re-indexed lines answer exactly the
semantic lookup: tail floor, seed, fold through the chain. -/
theorem flatQuery_compose_core (chain : List Consumer)
    (tsrc tnames : List String) (tailLines : List (List Segment))
    (srcs nms : List String) (fb : List (Option FbMeta))
    (hs : srcs = collectSources (composedOutLines chain tsrc tnames tailLines))
    (hn : nms = collectNames (composedOutLines chain tsrc tnames tailLines))
    (L C : Nat) :
    flatQuery ⟨(composedOutLines chain tsrc tnames tailLines).map
        (fun line => line.map (outSegToSeg srcs nms)), srcs, nms, fb⟩ L C =
      composedLookup chain tsrc tnames tailLines L C := by
  cases L with
  | zero => rfl
  | succ l =>
    have hgen : ∀ sg : Segment,
        ((fun sg2 => outSegToSeg srcs nms (composeSeg chain tsrc tnames sg2))
            sg).genCol = sg.genCol :=
      fun sg => composeSeg_genCol chain tsrc tnames srcs nms sg
    cases ht : tailLines[l]? with
    | none =>
      have hget : ((composedOutLines chain tsrc tnames tailLines).map
          (fun line => line.map (outSegToSeg srcs nms)))[l]? = none := by
        simp [composedOutLines, List.getElem?_map, ht]
      simp only [flatQuery, composedLookup, hget, ht]
    | some tline =>
      have hget : ((composedOutLines chain tsrc tnames tailLines).map
          (fun line => line.map (outSegToSeg srcs nms)))[l]? =
          some (tline.map
            (fun sg => outSegToSeg srcs nms (composeSeg chain tsrc tnames sg))) := by
        simp [composedOutLines, List.getElem?_map, List.map_map, ht,
          Function.comp]
      simp only [flatQuery, composedLookup, hget, ht]
      rw [floorSeg_map hgen]
      cases hf : floorSeg tline C with
      | none => rfl
      | some tseg =>
        simp only [Option.map_some']
        cases hseed : seedOf tsrc tnames tseg with
        | none =>
          simp [composeSeg, hseed, outSegToSeg]
        | some o =>
          cases hfold : foldChain chain o with
          | none =>
            simp [composeSeg, hseed, hfold, outSegToSeg]
          | some r =>
            obtain ⟨rs, rl, rc, rn⟩ := r
            have hcs : composeSeg chain tsrc tnames tseg =
                OutSeg.mapped tseg.genCol rs (rl - 1) rc rn := by
              simp [composeSeg, hseed, hfold]
            have hpos : 1 ≤ rl :=
              foldChain_line_pos chain o ⟨rs, rl, rc, rn⟩
                (seedOf_line_pos hseed) hfold
            have hlinemem : tline.map (composeSeg chain tsrc tnames) ∈
                composedOutLines chain tsrc tnames tailLines :=
              List.mem_map_of_mem _ (List.getElem?_mem ht)
            have hsegmem : OutSeg.mapped tseg.genCol rs (rl - 1) rc rn ∈
                tline.map (composeSeg chain tsrc tnames) := by
              rw [← hcs]
              exact List.mem_map_of_mem _ (floorSeg_mem hf)
            have hsrcs : srcs[idxOf rs srcs]? = some rs := by
              refine get?_idxOf rs srcs ?_
              rw [hs]
              exact mem_collectSources hlinemem hsegmem
            cases rn with
            | none =>
              simp only [hcs, outSegToSeg, hseed, hfold, hsrcs]
              have hrl : rl - 1 + 1 = rl := by omega
              rw [hrl]
            | some nm =>
              have hnms : nms[idxOf nm nms]? = some nm := by
                refine get?_idxOf nm nms ?_
                rw [hn]
                exact mem_collectNames hlinemem hsegmem
              simp only [hcs, outSegToSeg, hseed, hfold, hsrcs, hnms]
              have hrl : rl - 1 + 1 = rl := by omega
              rw [hrl]

theorem splitCharAux_ne_nil (d : Char) :
    ∀ (cs acc : List Char), splitCharAux d cs acc ≠ [] := by
  intro cs
  induction cs with
  | nil => intro acc; exact List.cons_ne_nil _ _
  | cons c rest ih =>
    intro acc
    rw [splitCharAux]
    by_cases h : c = d
    · rw [if_pos h]; exact List.cons_ne_nil _ _
    · rw [if_neg h]; exact ih _

theorem decodeLinesGo_length :
    ∀ (chunks : List (List Char)) (st : DState) (ls : List (List Segment)),
      decodeLinesGo st chunks = some ls → ls.length = chunks.length := by
  intro chunks
  induction chunks with
  | nil =>
    intro st ls h
    rcases Option.some_injective _ h with rfl
    rfl
  | cons chunk rest ih =>
    intro st ls h
    simp only [decodeLinesGo] at h
    cases hd : decodeLine st chunk with
    | none => simp [hd] at h
    | some r =>
      simp only [hd] at h
      cases hrest : decodeLinesGo r.2 rest with
      | none => simp [hrest] at h
      | some ls2 =>
        simp only [hrest] at h
        rcases Option.some_injective _ h with rfl
        have := ih r.2 ls2 hrest
        simp [this]

/-- A decoded mappings string always has at least one line. -/
theorem decodeMappings_ne_nil {s : String} {ls : List (List Segment)}
    (h : decodeMappings s = some ls) : ls ≠ [] := by
  unfold decodeMappings at h
  intro hnil
  subst hnil
  have hlen := decodeLinesGo_length _ _ _ h
  have hne := splitCharAux_ne_nil (Char.ofNat 59) s.toList []
  rw [splitChar] at hlen
  cases hx : splitCharAux (Char.ofNat 59) s.toList [] with
  | nil => exact hne hx
  | cons a b => rw [hx] at hlen; simp at hlen

/-- Serial symbolication through the remaining maps equals the fold
through their consumers, up to the name field the symbolicator drops. -/
theorem serial_eq_fold :
    ∀ (msR : List SourceMap) (chainR : List Consumer),
      buildChain msR = some chainR → msR ≠ [] →
      ∀ (o : Original),
        serialSymbolicate msR o.line o.col =
          (foldChain chainR o).map (fun r => (r.source, r.line, r.col)) := by
  intro msR
  induction msR with
  | nil => intro _ _ hne; exact absurd rfl hne
  | cons m rest ih =>
    intro chainR hchain _ o
    simp only [buildChain] at hchain
    cases hbm : buildConsumer m with
    | none => simp [hbm] at hchain
    | some c =>
      simp only [hbm] at hchain
      cases hbr : buildChain rest with
      | none => simp [hbr] at hchain
      | some cs =>
        simp only [hbr] at hchain
        rcases Option.some_injective _ hchain with rfl
        cases rest with
        | nil =>
          rcases Option.some_injective _ hbr with rfl
          simp only [serialSymbolicate, symbolicateFrame, hbm, foldChain]
          cases hq : c.query o.line o.col with
          | none => rfl
          | some q => rfl
        | cons m2 rest2 =>
          simp only [serialSymbolicate, symbolicateFrame, hbm, foldChain]
          cases hq : c.query o.line o.col with
          | none => rfl
          | some q =>
            simp only [Option.map_some']
            exact ih cs hbr (List.cons_ne_nil _ _)
              ⟨q.source, q.line, q.col, q.name.orElse fun _ => o.name⟩

/-- The chain lookup factors through the chainless lookup. -/
theorem composedLookup_split (chain : List Consumer)
    (tsrc tnames : List String) (tailLines : List (List Segment))
    (L C : Nat) :
    composedLookup chain tsrc tnames tailLines L C =
      (composedLookup [] tsrc tnames tailLines L C).bind (foldChain chain) := by
  cases L with
  | zero => rfl
  | succ l =>
    cases ht : tailLines[l]? with
    | none => simp [composedLookup, ht]
    | some tline =>
      cases hf : floorSeg tline C with
      | none => simp [composedLookup, ht, hf]
      | some tseg =>
        cases hseed : seedOf tsrc tnames tseg with
        | none => simp [composedLookup, ht, hf, hseed]
        | some o => simp [composedLookup, ht, hf, hseed, foldChain]

/-- The tail map's own query is the chainless lookup. -/
theorem flatQuery_tail_lookup (tailLines : List (List Segment))
    (tsrc tnames : List String) (tfb : List (Option FbMeta)) (L C : Nat) :
    flatQuery ⟨tailLines, tsrc, tnames, tfb⟩ L C =
      composedLookup [] tsrc tnames tailLines L C := by
  cases L with
  | zero => rfl
  | succ l =>
    cases ht : tailLines[l]? with
    | none => simp [flatQuery, composedLookup, ht]
    | some tline =>
      cases hf : floorSeg tline C with
      | none => simp [flatQuery, composedLookup, ht, hf]
      | some tseg =>
        cases tseg with
        | hole g => simp [flatQuery, composedLookup, ht, hf, seedOf]
        | seg4 g s ol oc =>
          cases hs : tsrc[s]? with
          | none => simp [flatQuery, composedLookup, ht, hf, seedOf, hs]
          | some src =>
            simp [flatQuery, composedLookup, ht, hf, seedOf, hs, foldChain]
        | seg5 g s ol oc n =>
          cases hs : tsrc[s]? with
          | none => simp [flatQuery, composedLookup, ht, hf, seedOf, hs]
          | some src =>
            simp [flatQuery, composedLookup, ht, hf, seedOf, hs, foldChain]

theorem reverse_of_getLast? {α : Type} {l : List α} {x : α}
    (h : l.getLast? = some x) :
    l.reverse = x :: l.dropLast.reverse := by
  induction l using List.reverseRecOn with
  | nil => simp at h
  | append_singleton l' a _ =>
    rw [List.getLast?_concat] at h
    rcases Option.some_injective _ h with rfl
    rw [List.dropLast_concat, List.reverse_append]
    rfl

/-- Querying the serialized composed map goes through decoding back to
the composed parts. -/
theorem buildConsumer_composed (chain : List Consumer) (tm : FlatMap)
    (tailLines : List (List Segment))
    (hdec : decodeMappings tm.mappings = some tailLines)
    (hb : linesBounded (composeParts chain tm tailLines).lines = true) :
    buildConsumer (.flat ⟨encodeMappings (composeParts chain tm tailLines).lines,
        (composeParts chain tm tailLines).sources,
        (composeParts chain tm tailLines).names,
        (composeParts chain tm tailLines).fb⟩) =
      some (.flat (composeParts chain tm tailLines)) := by
  have h1 : tailLines ≠ [] := decodeMappings_ne_nil hdec
  have hne : (composeParts chain tm tailLines).lines ≠ [] := by
    simp only [composeParts, composedOutLines]
    simp only [ne_eq, List.map_eq_nil_iff]
    exact h1
  simp only [buildConsumer, buildFlatPart,
    decodeMappings_encodeMappings _ hne hb]
  rfl

/-- The composeParts query equals the semantic lookup. -/
theorem flatQuery_composeParts (chain : List Consumer) (tm : FlatMap)
    (tailLines : List (List Segment)) (L C : Nat) :
    flatQuery (composeParts chain tm tailLines) L C =
      composedLookup chain tm.sources tm.names tailLines L C :=
  flatQuery_compose_core chain tm.sources tm.names tailLines _ _ _ rfl rfl L C

/-- Composition equals serial symbolication: symbolicating any frame
against the composed map gives the same (source, line, column) as
symbolicating it serially through the input maps in reverse stage
order. -/
theorem composed_serial_equiv (maps : List SourceMap) (R : SourceMap)
    (h : composeSourceMaps maps = some R) (L C : Nat) :
    symbolicateFrame R L C = serialSymbolicate maps.reverse L C := by
  unfold composeSourceMaps at h
  cases hlast : maps.getLast? with
  | none => simp [hlast] at h
  | some tail =>
    cases tail with
    | indexed sections => simp [hlast] at h
    | flat tm =>
      simp only [hlast] at h
      cases hdec : decodeMappings tm.mappings with
      | none => simp [hdec] at h
      | some tailLines =>
        simp only [hdec] at h
        cases hch : buildChain maps.dropLast.reverse with
        | none => simp [hch] at h
        | some chain =>
          simp only [hch] at h
          by_cases hb : linesBounded (composeParts chain tm tailLines).lines = true
          · rw [if_pos hb] at h
            rcases Option.some_injective _ h with rfl
            have hQ : symbolicateFrame
                (SourceMap.flat ⟨encodeMappings (composeParts chain tm tailLines).lines,
                  (composeParts chain tm tailLines).sources,
                  (composeParts chain tm tailLines).names,
                  (composeParts chain tm tailLines).fb⟩) L C =
                (composedLookup chain tm.sources tm.names tailLines L C).map
                  (fun r => (r.source, r.line, r.col)) := by
              simp only [symbolicateFrame,
                buildConsumer_composed chain tm tailLines hdec hb]
              rw [show Consumer.query (.flat (composeParts chain tm tailLines)) L C =
                flatQuery (composeParts chain tm tailLines) L C from rfl]
              rw [flatQuery_composeParts]
            have hT : symbolicateFrame (SourceMap.flat tm) L C =
                (composedLookup [] tm.sources tm.names tailLines L C).map
                  (fun r => (r.source, r.line, r.col)) := by
              simp only [symbolicateFrame, buildConsumer, buildFlatPart, hdec,
                Option.map_some']
              rw [show Consumer.query
                  (.flat ⟨tailLines, tm.sources, tm.names, tm.fb⟩) L C =
                flatQuery ⟨tailLines, tm.sources, tm.names, tm.fb⟩ L C from rfl]
              rw [flatQuery_tail_lookup]
            rw [hQ, reverse_of_getLast? hlast]
            cases hmsR : maps.dropLast.reverse with
            | nil =>
              rw [hmsR] at hch
              simp only [buildChain] at hch
              rcases Option.some_injective _ hch with rfl
              rw [show serialSymbolicate [SourceMap.flat tm] L C =
                symbolicateFrame (SourceMap.flat tm) L C from rfl, hT]
            | cons m2 rest2 =>
              rw [hmsR] at hch
              rw [composedLookup_split]
              simp only [serialSymbolicate]
              rw [hT]
              cases hlk : composedLookup [] tm.sources tm.names tailLines L C with
              | none => simp
              | some o =>
                simp only [Option.map_some', Option.some_bind]
                rw [serial_eq_fold (m2 :: rest2) chain hch
                  (List.cons_ne_nil _ _) o]
          · rw [if_neg hb] at h
            cases h

/-- Inversion of a successful composition: the tail map is flat and
decodes, the chain builds, the output is bounded, and the result is the
serialized composed parts. -/
theorem composeSourceMaps_inv {maps : List SourceMap} {R : SourceMap}
    (h : composeSourceMaps maps = some R) :
    ∃ (tm : FlatMap) (tailLines : List (List Segment)) (chain : List Consumer),
      maps.getLast? = some (.flat tm) ∧
      decodeMappings tm.mappings = some tailLines ∧
      buildChain maps.dropLast.reverse = some chain ∧
      linesBounded (composeParts chain tm tailLines).lines = true ∧
      R = .flat ⟨encodeMappings (composeParts chain tm tailLines).lines,
        (composeParts chain tm tailLines).sources,
        (composeParts chain tm tailLines).names,
        (composeParts chain tm tailLines).fb⟩ := by
  unfold composeSourceMaps at h
  cases hlast : maps.getLast? with
  | none => simp [hlast] at h
  | some tail =>
    cases tail with
    | indexed sections => simp [hlast] at h
    | flat tm =>
      simp only [hlast] at h
      cases hdec : decodeMappings tm.mappings with
      | none => simp [hdec] at h
      | some tailLines =>
        simp only [hdec] at h
        cases hch : buildChain maps.dropLast.reverse with
        | none => simp [hch] at h
        | some chain =>
          simp only [hch] at h
          by_cases hb : linesBounded (composeParts chain tm tailLines).lines = true
          · rw [if_pos hb] at h
            rcases Option.some_injective _ h with rfl
            exact ⟨tm, tailLines, chain, rfl, hdec, rfl, hb, rfl⟩
          · rw [if_neg hb] at h
            cases h

/-- Querying the composed map is exactly the semantic lookup. -/
theorem symbolicateFrame_composed_eq (chain : List Consumer) (tm : FlatMap)
    (tailLines : List (List Segment))
    (hdec : decodeMappings tm.mappings = some tailLines)
    (hb : linesBounded (composeParts chain tm tailLines).lines = true)
    (L C : Nat) :
    symbolicateFrame
        (.flat ⟨encodeMappings (composeParts chain tm tailLines).lines,
          (composeParts chain tm tailLines).sources,
          (composeParts chain tm tailLines).names,
          (composeParts chain tm tailLines).fb⟩) L C =
      (composedLookup chain tm.sources tm.names tailLines L C).map
        (fun r => (r.source, r.line, r.col)) := by
  simp only [symbolicateFrame, buildConsumer_composed chain tm tailLines hdec hb]
  rw [show Consumer.query (.flat (composeParts chain tm tailLines)) L C =
    flatQuery (composeParts chain tm tailLines) L C from rfl]
  rw [flatQuery_composeParts]

/-! ## Concrete maps from the repository's test suite -/

/-- First map of the repository test `merges two maps preserving unmapped
regions in the second one`. -/
def mapScn3First : SourceMap := .flat ⟨"AAACA,CAACA", ["a.js"], ["a"], []⟩

/-- Second map of the same test; the segment `,C,` is an unmapped hole. -/
def mapScn3Second : SourceMap := .flat ⟨"AAAAA,C,CAAAA,CAACA", ["b.js"], ["b"], []⟩

/-- The expected composed map pinned by the test's inline snapshot. -/
def mapScn3Composed : SourceMap :=
  .flat ⟨"AAACA,C,CAAAA,CAACA", ["a.js"], ["a"], [none]⟩

/-- First map of the repository test `preserves x_facebook_sources`: an
indexed map with one section at offset (0,0). -/
def mapFb1 : SourceMap := .indexed [(0, 0,
  ⟨";CACCA", ["src.js"], ["global"], [some [⟨["<global>"], "AAA"⟩]]⟩)]

/-- Second map of the same test. -/
def mapFb2 : SourceMap :=
  .flat ⟨";CACCA", ["src-transformed.js"], ["gLoBAl"], []⟩

/-- The composition of the x_facebook_sources test pair. -/
def mapFbComposed : SourceMap :=
  .flat ⟨";CACCA", ["src.js"], ["global"], [some [⟨["<global>"], "AAA"⟩]]⟩

/-! ## The claims -/

/-- C1: for every backtrace frame (file, L, C) and every input list on
which composition succeeds, symbolicating the frame through the composed
map yields exactly the same result as symbolicating it serially through
the input maps in reverse stage order (last map first). -/
theorem claim_C1_composition_eq_serial (maps : List SourceMap)
    (R : SourceMap) (L C : Nat) (h : composeSourceMaps maps = some R) :
    symbolicateFrame R L C = serialSymbolicate maps.reverse L C :=
  composed_serial_equiv maps R h L C

/-- Witness for C1 on the repository's concrete map pair. -/
theorem claim_C1_witness :
    composeSourceMaps [mapScn3First, mapScn3Second] = some mapScn3Composed ∧
      symbolicateFrame mapScn3Composed 1 3 =
        serialSymbolicate [mapScn3First, mapScn3Second].reverse 1 3 :=
  ⟨by decide, claim_C1_composition_eq_serial _ _ 1 3 (by decide)⟩

/-- C5: composing the two specific flat maps of the repository test
produces exactly the snapshot map: mappings AAACA,C,CAAAA,CAACA, sources
a.js, names a, x_facebook_sources with the single entry null. -/
theorem claim_C5_concrete_composition :
    composeSourceMaps [mapScn3First, mapScn3Second] = some mapScn3Composed := by
  decide

/-- C7: whenever composition succeeds — including on lists whose earlier
maps are indexed — the result is a single flat map (it has mappings,
sources and names fields and no sections), and it describes positions of
the last map's generated code in terms of the first map's original
sources in the sense of the serial-symbolication law. -/
theorem claim_C7_flat_output (maps : List SourceMap) (R : SourceMap)
    (h : composeSourceMaps maps = some R) :
    (∃ fm : FlatMap, R = .flat fm) ∧
      ∀ L C : Nat,
        symbolicateFrame R L C = serialSymbolicate maps.reverse L C := by
  obtain ⟨tm, tailLines, chain, _, _, _, _, hR⟩ := composeSourceMaps_inv h
  exact ⟨⟨_, hR⟩, fun L C => composed_serial_equiv maps R h L C⟩

/-- Witness for C7 with an indexed first map. -/
theorem claim_C7_witness :
    composeSourceMaps [mapFb1, mapFb2] = some mapFbComposed ∧
      ((∃ fm : FlatMap, mapFbComposed = .flat fm) ∧
        ∀ L C : Nat,
          symbolicateFrame mapFbComposed L C =
            serialSymbolicate [mapFb1, mapFb2].reverse L C) :=
  ⟨by decide, claim_C7_flat_output _ _ (by decide)⟩

/-- A first map covering only generated line 1. -/
def mapHoleFirst : SourceMap := .flat ⟨"AAAA", ["p.js"], [], []⟩

/-- A second map whose only segment resolves to original line 2, which
the first map leaves unmapped. -/
def mapHoleSecond : SourceMap := .flat ⟨"AACA", ["q.js"], [], []⟩

/-- Their composition: a single hole. -/
def mapHoleComposed : SourceMap := .flat ⟨"A", [], [], []⟩

/-- C2: if the tail map has a hole at a generated position (arity-1
segment, uncovered position, or missing line), the composed map has a
hole there; and if folding a tail segment through the chain hits an
unmapped answer from any intermediate consumer, the composed map has a
hole at that segment's generated position — even when an earlier map
would have mapped that column. -/
theorem claim_C2_hole_propagation (maps : List SourceMap)
    (R tailm : SourceMap) (L C : Nat)
    (h : composeSourceMaps maps = some R)
    (hlast : maps.getLast? = some tailm) :
    (symbolicateFrame tailm L C = none → symbolicateFrame R L C = none) ∧
    (∀ (tm : FlatMap) (tailLines : List (List Segment))
        (chain : List Consumer) (l : Nat) (tline : List Segment)
        (tseg : Segment) (o : Original),
      tailm = .flat tm →
      decodeMappings tm.mappings = some tailLines →
      buildChain maps.dropLast.reverse = some chain →
      tailLines[l]? = some tline →
      floorSeg tline C = some tseg →
      seedOf tm.sources tm.names tseg = some o →
      foldChain chain o = none →
      symbolicateFrame R (l + 1) C = none) := by
  constructor
  · intro htail
    rw [composed_serial_equiv maps R h L C, reverse_of_getLast? hlast]
    cases maps.dropLast.reverse with
    | nil => simpa [serialSymbolicate] using htail
    | cons m2 rest2 => simp [serialSymbolicate, htail]
  · intro tm tailLines chain l tline tseg o htm hdec hch ht hf hseed hfold
    obtain ⟨tm', tailLines', chain', hlast', hdec', hch', hb', hR⟩ :=
      composeSourceMaps_inv h
    subst htm
    rw [hlast] at hlast'
    have htmeq : tm = tm' := SourceMap.flat.inj (Option.some_injective _ hlast')
    subst htmeq
    rw [hdec] at hdec'
    have htleq : tailLines = tailLines' := Option.some_injective _ hdec'
    subst htleq
    rw [hch] at hch'
    have hcheq : chain = chain' := Option.some_injective _ hch'
    subst hcheq
    subst hR
    rw [symbolicateFrame_composed_eq chain tm tailLines hdec hb' (l + 1) C]
    simp [composedLookup, ht, hf, hseed, hfold]

/-- Witness for C2: the repository pair (a hole in the tail survives even
though the first map maps that column), and a pair where the
intermediate consumer is unmapped during folding. -/
theorem claim_C2_witness :
    (composeSourceMaps [mapScn3First, mapScn3Second] = some mapScn3Composed ∧
      symbolicateFrame mapScn3Second 1 1 = none ∧
      symbolicateFrame mapScn3First 1 1 ≠ none ∧
      symbolicateFrame mapScn3Composed 1 1 = none) ∧
    (composeSourceMaps [mapHoleFirst, mapHoleSecond] = some mapHoleComposed ∧
      symbolicateFrame mapHoleComposed 1 0 = none) := by
  constructor
  · refine ⟨by decide, by decide, by decide, ?_⟩
    exact (claim_C2_hole_propagation [mapScn3First, mapScn3Second]
      mapScn3Composed mapScn3Second 1 1 (by decide) (by decide)).1 (by decide)
  · refine ⟨by decide, ?_⟩
    exact (claim_C2_hole_propagation [mapHoleFirst, mapHoleSecond]
      mapHoleComposed mapHoleSecond 1 0 (by decide) (by decide)).2
      ⟨"AACA", ["q.js"], [], []⟩ [[Segment.seg4 0 0 1 0]]
      [Consumer.flat ⟨[[Segment.seg4 0 0 0 0]], ["p.js"], [], []⟩]
      0 [Segment.seg4 0 0 1 0] (Segment.seg4 0 0 1 0) ⟨"q.js", 2, 0, none⟩
      rfl (by decide) (by decide) (by decide) (by decide) (by decide)
      (by decide)

/-- Appending a deepest consumer to the chain folds after the rest. -/
theorem foldChain_append :
    ∀ (chain : List Consumer) (c : Consumer) (o : Original),
      foldChain (chain ++ [c]) o = (foldChain chain o).bind (foldChain [c]) := by
  intro chain
  induction chain with
  | nil => intro c o; rfl
  | cons c1 rest ih =>
    intro c o
    simp only [List.cons_append, foldChain]
    cases hq : c1.query o.line o.col with
    | none => rfl
    | some q => exact ih c _

/-- C3 as stated is false on the code: the composed output name is not
the tail-most non-null name encountered during folding.  On the
repository's own x_facebook_sources pair, the tail segment carries the
non-null name gLoBAl, yet the composed map surfaces the first map's name
global. -/
theorem claim_C3_counterexample :
    composeSourceMaps [mapFb1, mapFb2] = some mapFbComposed ∧
    (∃ c, buildConsumer mapFbComposed = some c ∧
      (c.query 2 1).map Original.name = some (some "global")) ∧
    (seedOf ["src-transformed.js"] ["gLoBAl"] (Segment.seg5 1 0 1 1 0)).map
        Original.name = some (some "gLoBAl") ∧
    (some "global" : Option String) ≠ some "gLoBAl" := by
  refine ⟨by decide,
    ⟨Consumer.flat ⟨[[], [Segment.seg5 1 0 1 1 0]], ["src.js"], ["global"],
      [some [⟨["<global>"], "AAA"⟩]]⟩, by decide, by decide⟩,
    by decide, by decide⟩

/-- Original stage map carrying the symbol name a. -/
def mapName1 : SourceMap := .flat ⟨"AAAAA", ["orig.js"], ["a"], []⟩

/-- Mangler stage map carrying the renamed symbol x. -/
def mapName2 : SourceMap := .flat ⟨"AAAAA", ["mid.js"], ["x"], []⟩

/-- Their composition retains the original-stage name a. -/
def mapNameComposed : SourceMap := .flat ⟨"AAAAA", ["orig.js"], ["a"], [none]⟩

/-- C3 amended: the name of the emitted output segment is the deepest
(original-stage-most) non-null name encountered during folding — each
deeper stage's non-null answer overrides the name carried so far, with
the shallower name as fallback — so a segment with name a folded through
a mangler stage renaming it to x yields an output segment whose name is
a. -/
theorem claim_C3_amended_deepest_name :
    (∀ (chain : List Consumer) (c : Consumer) (o r : Original),
        foldChain (chain ++ [c]) o = some r →
        ∃ r2 q, foldChain chain o = some r2 ∧
          c.query r2.line r2.col = some q ∧
          r.name = q.name.orElse (fun _ => r2.name)) ∧
    (composeSourceMaps [mapName1, mapName2] = some mapNameComposed ∧
      ∃ c, buildConsumer mapNameComposed = some c ∧
        (c.query 1 0).map Original.name = some (some "a")) := by
  constructor
  · intro chain c o r hfold
    rw [foldChain_append] at hfold
    cases hfc : foldChain chain o with
    | none => rw [hfc] at hfold; cases hfold
    | some r2 =>
      rw [hfc] at hfold
      simp only [Option.some_bind, foldChain] at hfold
      cases hq : c.query r2.line r2.col with
      | none => rw [hq] at hfold; cases hfold
      | some q =>
        rw [hq] at hfold
        rcases Option.some_injective _ hfold with rfl
        exact ⟨r2, q, rfl, hq, rfl⟩
  · refine ⟨by decide,
      ⟨Consumer.flat ⟨[[Segment.seg5 0 0 0 0 0]], ["orig.js"], ["a"], [none]⟩,
        by decide, by decide⟩⟩

/-- Witness for the general part of the amended C3 at a concrete fold. -/
theorem claim_C3_amended_witness :
    foldChain ([] ++ [Consumer.flat ⟨[[Segment.seg5 0 0 0 0 0]], ["orig.js"],
        ["a"], []⟩]) ⟨"mid.js", 1, 0, some "x"⟩ =
      some ⟨"orig.js", 1, 0, some "a"⟩ ∧
    ∃ r2 q, foldChain [] ⟨"mid.js", 1, 0, some "x"⟩ = some r2 ∧
      (Consumer.flat ⟨[[Segment.seg5 0 0 0 0 0]], ["orig.js"], ["a"],
        []⟩).query r2.line r2.col = some q ∧
      (Original.name ⟨"orig.js", 1, 0, some "a"⟩) =
        q.name.orElse (fun _ => r2.name) :=
  ⟨by decide,
    claim_C3_amended_deepest_name.1 []
      (Consumer.flat ⟨[[Segment.seg5 0 0 0 0 0]], ["orig.js"], ["a"], []⟩)
      ⟨"mid.js", 1, 0, some "x"⟩ ⟨"orig.js", 1, 0, some "a"⟩ (by decide)⟩

/-- C4: for every source retained in the composed output, the output's
x_facebook_sources entry at that source's index is the entry the
provider carries for it — the first map's consumer, the unique provider
of every output source in a chain (the tail itself when there is a
single map), null when it carries no channel for it; and composing the
repository's indexed-plus-flat pair yields exactly the expected
channel. -/
theorem claim_C4_fb_preservation (maps : List SourceMap) (R : SourceMap)
    (tm : FlatMap) (tailLines : List (List Segment)) (chain : List Consumer)
    (h : composeSourceMaps maps = some R)
    (hlast : maps.getLast? = some (.flat tm))
    (hdec : decodeMappings tm.mappings = some tailLines)
    (hch : buildChain maps.dropLast.reverse = some chain) :
    (∃ fm : FlatMap, R = .flat fm ∧
      ∀ (i : Nat) (s : String), fm.sources[i]? = some s →
        fm.fb[i]? = some (providerMeta chain
          ⟨tailLines, tm.sources, tm.names, tm.fb⟩ s)) ∧
    composeSourceMaps [mapFb1, mapFb2] = some mapFbComposed := by
  constructor
  · obtain ⟨tm', tailLines', chain', hlast', hdec', hch', hb', hR⟩ :=
      composeSourceMaps_inv h
    rw [hlast] at hlast'
    have htmeq : tm = tm' := SourceMap.flat.inj (Option.some_injective _ hlast')
    subst htmeq
    rw [hdec] at hdec'
    have htleq : tailLines = tailLines' := Option.some_injective _ hdec'
    subst htleq
    rw [hch] at hch'
    have hcheq : chain = chain' := Option.some_injective _ hch'
    subst hcheq
    refine ⟨_, hR, ?_⟩
    intro i s hsi
    have hsrc : (composeParts chain tm tailLines).sources[i]? = some s := hsi
    show ((composeParts chain tm tailLines).fb)[i]? = _
    rw [show (composeParts chain tm tailLines).fb =
      (composeParts chain tm tailLines).sources.map
        (providerMeta chain ⟨tailLines, tm.sources, tm.names, tm.fb⟩) from rfl]
    rw [List.getElem?_map, hsrc, Option.map_some']
  · decide

/-- Witness for C4 at the repository's concrete pair. -/
theorem claim_C4_witness :
    composeSourceMaps [mapFb1, mapFb2] = some mapFbComposed ∧
    (∃ fm : FlatMap, mapFbComposed = .flat fm ∧
      ∀ (i : Nat) (s : String), fm.sources[i]? = some s →
        fm.fb[i]? = some (providerMeta
          [Consumer.indexed [(0, 0, ⟨[[], [Segment.seg5 1 0 1 1 0]],
            ["src.js"], ["global"], [some [⟨["<global>"], "AAA"⟩]]⟩)]]
          ⟨[[], [Segment.seg5 1 0 1 1 0]], ["src-transformed.js"],
            ["gLoBAl"], []⟩ s)) :=
  ⟨by decide,
    (claim_C4_fb_preservation [mapFb1, mapFb2] mapFbComposed
      ⟨";CACCA", ["src-transformed.js"], ["gLoBAl"], []⟩
      [[], [Segment.seg5 1 0 1 1 0]]
      [Consumer.indexed [(0, 0, ⟨[[], [Segment.seg5 1 0 1 1 0]],
        ["src.js"], ["global"], [some [⟨["<global>"], "AAA"⟩]]⟩)]]
      (by decide) (by decide) (by decide) (by decide)).1⟩

/-- C6: a Consumer built from a flat map and a Consumer built from the
indexed map wrapping it as a single section at offset (0,0) return
identical originalPositionFor results at every queried position. -/
theorem claim_C6_indexed_equivalence (m : FlatMap) (c : Consumer)
    (h : buildConsumer (.flat m) = some c) (line col : Nat) :
    ∃ ci, buildConsumer (.indexed [(0, 0, m)]) = some ci ∧
      ci.query line col = c.query line col := by
  simp only [buildConsumer] at h
  cases hp : buildFlatPart m with
  | none => rw [hp] at h; cases h
  | some p =>
    rw [hp] at h
    rcases Option.some_injective _ h with rfl
    refine ⟨.indexed [(0, 0, p)], ?_, ?_⟩
    · simp [buildConsumer, buildSections, hp]
    · simp only [Consumer.query, pickSection, List.foldl_cons, List.foldl_nil]
      cases line with
      | zero =>
        rw [if_neg (by simp [sectionLE])]
        simp [flatQuery]
      | succ n =>
        rw [if_pos (by
          simp only [sectionLE, Bool.or_eq_true, Bool.and_eq_true,
            decide_eq_true_eq]
          omega)]
        show flatQuery p (n + 1 - 0) (if n + 1 = 0 + 1 then col - 0 else col) =
          flatQuery p (n + 1) col
        cases n with
        | zero => rfl
        | succ k => rfl

/-- Witness for C6 at a concrete flat map and position. -/
theorem claim_C6_witness :
    buildConsumer (.flat ⟨"AAACA,CAACA", ["a.js"], ["a"], []⟩) =
      some (Consumer.flat ⟨[[Segment.seg5 0 0 0 1 0, Segment.seg5 1 0 0 2 0]],
        ["a.js"], ["a"], []⟩) ∧
    ∃ ci, buildConsumer (.indexed
        [(0, 0, ⟨"AAACA,CAACA", ["a.js"], ["a"], []⟩)]) = some ci ∧
      ci.query 1 5 = (Consumer.flat ⟨[[Segment.seg5 0 0 0 1 0,
        Segment.seg5 1 0 0 2 0]], ["a.js"], ["a"], []⟩).query 1 5 :=
  ⟨by decide,
    claim_C6_indexed_equivalence ⟨"AAACA,CAACA", ["a.js"], ["a"], []⟩ _
      (by decide) 1 5⟩

/-- C8: decoding the VLQ segment-stream encoding of any segment container
recovers the container (any non-empty container whose absolute field
values fit the 32-bit signed VLQ range — the empty container and the
container of one empty line share the encoding, the empty string). -/
theorem claim_C8_roundtrip (lines : List (List Segment))
    (hne : lines ≠ []) (hb : linesBounded lines = true) :
    decodeMappings (encodeMappings lines) = some lines :=
  decodeMappings_encodeMappings lines hne hb

/-- Witness for C8 at a concrete container of all three arities. -/
theorem claim_C8_witness :
    ([[Segment.seg4 0 0 0 1, Segment.hole 2], [],
        [Segment.seg5 3 1 2 0 0]] : List (List Segment)) ≠ [] ∧
    linesBounded [[Segment.seg4 0 0 0 1, Segment.hole 2], [],
        [Segment.seg5 3 1 2 0 0]] = true ∧
    decodeMappings (encodeMappings [[Segment.seg4 0 0 0 1, Segment.hole 2],
        [], [Segment.seg5 3 1 2 0 0]]) =
      some [[Segment.seg4 0 0 0 1, Segment.hole 2], [],
        [Segment.seg5 3 1 2 0 0]] :=
  ⟨by decide, by decide, claim_C8_roundtrip _ (by decide) (by decide)⟩

end Metro
